import Mathlib

/-!
Verification development for the AI-powered changelog generator
(`changelog.mjs`).  The JavaScript source is shallowly embedded: each
relevant method is translated into an executable Lean definition that
mirrors the source line by line; external collaborators (git, the file
system, the network) appear as explicit parameters.  Strings that the
source manipulates character by character are modelled as `List Char`
(abbreviated `Str`); higher-level markdown assembly is modelled on
`String` directly.
-/

namespace Changelog

/-- Character lists: the character-level view of JavaScript strings. -/
abbrev Str := List Char

/-- `s.toLowerCase()` on the character-level view. -/
def lowerStr (s : Str) : Str := s.map Char.toLower

/-- `prefix.isPrefixOf s` check, modelling JS `s.startsWith(q)`. -/
def isPreB : Str → Str → Bool
  | [], _ => true
  | _ :: _, [] => false
  | c :: cs, d :: ds => c == d && isPreB cs ds

/-- JS `s.includes(q)` on the character-level view. -/
def isInfixB (q : Str) : Str → Bool
  | [] => isPreB q []
  | c :: bs => isPreB q (c :: bs) || isInfixB q bs

/-- `q` occurs inside `s` as a subsequence (characters in order, gaps
allowed).  Greedy scan: equivalent to the existence of a subsequence
embedding. -/
def isSubseq : Str → Str → Bool
  | [], _ => true
  | _ :: _, [] => false
  | c :: cs, d :: ds => if c == d then isSubseq cs ds else isSubseq (c :: cs) ds

/-- Separator test for the split on slash and dash in `filterBranches`. -/
def isSegSep (c : Char) : Bool := c == '/' || c == '-'

/-- JS split on the character class slash-or-dash: splits on `/` and `-`, keeping empty segments,
exactly as the JavaScript `String.prototype.split` does. -/
def splitSegs : Str → List Str
  | [] => [[]]
  | c :: rest =>
    if isSegSep c then [] :: splitSegs rest
    else
      match splitSegs rest with
      | [] => [[c]]
      | s :: ss => (c :: s) :: ss

/-- The fuzzy-match loop of `BranchSelector.filterBranches` (source lines
504-512): walk the branch characters, advancing through the query and
adding one point per matched character.  When the branch is exhausted with
query characters left the JS code zeroes the score. -/
def fuzzyGo : Str → Str → Nat → Nat
  | _, [], acc => acc
  | [], _ :: _, _ => 0
  | c :: bs, d :: qs, acc =>
    if c == d then fuzzyGo bs qs (acc + 1) else fuzzyGo bs (d :: qs) acc

/-- The match score assigned to one branch by
`BranchSelector.filterBranches` (source lines 490-516). -/
def score (branch query : Str) : Nat :=
  let lb := lowerStr branch
  let lq := lowerStr query
  if lb == lq then 1000
  else if isPreB lq lb then 100
  else if (splitSegs lb).any (fun part => isPreB lq part) then 50
  else if isInfixB lq lb then 10
  else fuzzyGo lb lq 0

/-- A branch together with its score, as built by the `map` in
`filterBranches`. -/
structure Scored where
  branch : Str
  score : Nat
deriving DecidableEq, Repr

/-- Stable insertion for the descending sort
`.sort((a, b) => b.score - a.score)`.  `sortDesc` inserts elements from
right to left, so each element is earlier in encounter order than the
already-sorted tail and must be placed before elements of equal score —
exactly the stable behaviour mandated for `Array.prototype.sort`. -/
def insertDesc (a : Scored) : List Scored → List Scored
  | [] => [a]
  | b :: bs => if a.score ≥ b.score then a :: b :: bs else b :: insertDesc a bs

/-- Stable sort by descending score. -/
def sortDesc : List Scored → List Scored
  | [] => []
  | a :: as_ => insertDesc a (sortDesc as_)

/-- `BranchSelector.filterBranches(query)` (source lines 484-522): empty
query returns the full list; otherwise branches are scored, zero scores
dropped, and the rest sorted by descending score (stable). -/
def filterBranches (allBranches : List Str) (query : Str) : List Str :=
  if query == [] then allBranches
  else
    let scored := allBranches.map (fun b => Scored.mk b (score b query))
    (sortDesc (scored.filter (fun item => item.score > 0))).map (·.branch)

/-- Whether the score computation takes one of the four contiguous tiers
(exact, whole-string starts-with, segment starts-with, contains), i.e.
does not fall through to the fuzzy subsequence loop. -/
def contiguousMatch (branch query : Str) : Bool :=
  let lb := lowerStr branch
  let lq := lowerStr query
  lb == lq || isPreB lq lb || (splitSegs lb).any (fun part => isPreB lq part) ||
    isInfixB lq lb

/-- First-occurrence deduplication with an accumulator of already seen
names: models both the JS `new Set(...)` spread (insertion order, first
occurrence kept) and the `array.indexOf(branch) === index` filter of
`buildBranchList`. -/
def dedupGo (seen : List Str) : List Str → List Str
  | [] => []
  | a :: l => if a ∈ seen then dedupGo seen l else a :: dedupGo (a :: seen) l

/-- First-occurrence deduplication. -/
def firstDedup (l : List Str) : List Str := dedupGo [] l

/-- Lexicographic comparison of two character lists by code point,
modelling the default (code-unit) comparator of `Array.prototype.sort`
on the ASCII branch names involved. -/
def lexLt : Str → Str → Bool
  | [], [] => false
  | [], _ :: _ => true
  | _ :: _, [] => false
  | c :: cs, d :: ds =>
    if c.toNat < d.toNat then true
    else if d.toNat < c.toNat then false
    else lexLt cs ds

/-- Stable insertion for the ascending lexicographic `.sort()`. -/
def insertAsc (a : Str) : List Str → List Str
  | [] => [a]
  | b :: bs => if lexLt a b then a :: b :: bs else b :: insertAsc a bs

/-- Ascending lexicographic sort of branch names (`otherBranches.sort()`). -/
def sortAsc : List Str → List Str
  | [] => []
  | a :: as_ => insertAsc a (sortAsc as_)

/-- The two priority branches of `buildBranchList`. -/
def priorityBranches : List Str := ["master".data, "main".data]

/-- The `defaultBranch` computation of `buildBranchList` (source lines
450-453): the first of `master`/`main` present locally or remotely, with
the JS `|| 'master'` fallback when neither exists. -/
def defaultBranch (localBranches remoteBranches : List Str) : Str :=
  match priorityBranches.find? (fun b => b ∈ localBranches || b ∈ remoteBranches) with
  | some b => b
  | none => "master".data

/-- The alphabetical remainder of `buildBranchList` (source lines 459-464):
all unique branches that are neither priority nor recent, sorted. -/
def otherBranches (localBranches remoteBranches recentBranches : List Str) : List Str :=
  sortAsc ((firstDedup (localBranches ++ remoteBranches)).filter
    (fun b => !(b ∈ priorityBranches) && !(b ∈ recentBranches)))

/-- `BranchSelector.buildBranchList()` (source lines 444-477).  The three
git queries (local branches, remote branches with `origin/` stripped, and
reflog-recent branches excluding the current branch) are passed in as
explicit parameters. -/
def buildBranchList (localBranches remoteBranches recentBranches : List Str) : List Str :=
  let allB := firstDedup (localBranches ++ remoteBranches)
  let d := defaultBranch localBranches remoteBranches
  firstDedup
    (d :: (recentBranches.filter (fun b => b ≠ d && b ∈ allB) ++
      otherBranches localBranches remoteBranches recentBranches))

/-- The line-filtering loop of `GitOperations.getFileDiff` (source lines
373-391), with the loop state (`inHunk`, `hunkCount`) explicit and the
`maxHunks = 3` constant inlined.  The `break` on the fourth hunk marker is
modelled by returning `[]` for the rest of the input.  Lines are viewed as
character lists. -/
def getFileDiffGo : List Str → Bool → Nat → List Str
  | [], _, _ => []
  | line :: rest, inHunk, hunkCount =>
    if isPreB "@@".data line then
      if hunkCount ≥ 3 then []
      else line :: getFileDiffGo rest true (hunkCount + 1)
    else if inHunk && (isPreB "+".data line || isPreB "-".data line) then
      line :: getFileDiffGo rest inHunk hunkCount
    else if inHunk && line == [] then
      line :: getFileDiffGo rest inHunk hunkCount
    else if !(isPreB " ".data line) then
      getFileDiffGo rest false hunkCount
    else
      getFileDiffGo rest inHunk hunkCount

/-- The relevant lines kept by `GitOperations.getFileDiff` for one raw
diff, starting from the initial state `inHunk = false`, `hunkCount = 0`. -/
def getFileDiffLines (lines : List Str) : List Str :=
  getFileDiffGo lines false 0

/-- `GitOperations.getFileDiff(range, file)` (source lines 370-394) applied
to the raw diff text that `git diff` returned: split into lines, filter,
and re-join. -/
def getFileDiff (diff : String) : String :=
  String.intercalate "\n"
    ((getFileDiffLines ((diff.splitOn "\n").map String.data)).map String.mk)

/-- JSON whitespace. -/
def isJsonWs (c : Char) : Bool := c == ' ' || c == '\n' || c == '\t' || c == '\r'

/-- Drop leading JSON whitespace. -/
def skipWs (s : Str) : Str := s.dropWhile isJsonWs

/-- JSON values, the model of what `JSON.parse` returns inside
`AIChangelogGenerator.parseResponse`. -/
inductive Json where
  | null : Json
  | bool (b : Bool) : Json
  | num (n : Int) : Json
  | str (s : Str) : Json
  | arr (elems : List Json) : Json
  | obj (fields : List (Str × Json)) : Json

/-- Body of a JSON string literal after the opening quote: scan to the
closing quote.  An escaped character is kept literally, which is the
correct behaviour for the two escapes appearing in the analysed texts. -/
def parseStrLit : Str → Option (Str × Str)
  | [] => none
  | '"' :: rest => some ([], rest)
  | '\\' :: c :: rest => (parseStrLit rest).map (fun p => (c :: p.1, p.2))
  | ['\\'] => none
  | c :: rest => (parseStrLit rest).map (fun p => (c :: p.1, p.2))

/-- Decimal digits to a number. -/
def digitsToNat (ds : Str) : Nat := ds.foldl (fun acc c => acc * 10 + (c.toNat - 48)) 0

/-- A JSON integer (optional minus sign, decimal digits; the fraction and
exponent forms are unused by the analysed texts). -/
def parseNum : Str → Option (Int × Str)
  | '-' :: rest =>
    let ds := rest.takeWhile Char.isDigit
    if ds == [] then none
    else some (-(digitsToNat ds : Int), rest.dropWhile Char.isDigit)
  | s =>
    let ds := s.takeWhile Char.isDigit
    if ds == [] then none
    else some ((digitsToNat ds : Int), s.dropWhile Char.isDigit)

mutual

/-- Recursive-descent JSON parser modelling `JSON.parse`, with explicit
fuel to bound the recursion. -/
def parseVal : Nat → Str → Option (Json × Str)
  | 0, _ => none
  | f + 1, s =>
    match skipWs s with
    | '\x7b' :: rest => parseFieldsStart f rest
    | '[' :: rest => parseItemsStart f rest
    | '"' :: rest => (parseStrLit rest).map (fun p => (Json.str p.1, p.2))
    | 't' :: 'r' :: 'u' :: 'e' :: rest => some (Json.bool true, rest)
    | 'f' :: 'a' :: 'l' :: 's' :: 'e' :: rest => some (Json.bool false, rest)
    | 'n' :: 'u' :: 'l' :: 'l' :: rest => some (Json.null, rest)
    | other => (parseNum other).map (fun p => (Json.num p.1, p.2))

/-- Object body right after the opening brace. -/
def parseFieldsStart : Nat → Str → Option (Json × Str)
  | 0, _ => none
  | f + 1, s =>
    match skipWs s with
    | '\x7d' :: rest => some (Json.obj [], rest)
    | other => (parseFields f other).map (fun p => (Json.obj p.1, p.2))

/-- Non-empty member list of a JSON object. -/
def parseFields : Nat → Str → Option (List (Str × Json) × Str)
  | 0, _ => none
  | f + 1, s =>
    match skipWs s with
    | '"' :: rest =>
      match parseStrLit rest with
      | none => none
      | some (key, r1) =>
        match skipWs r1 with
        | ':' :: r2 =>
          match parseVal f r2 with
          | none => none
          | some (v, r3) =>
            match skipWs r3 with
            | ',' :: r4 => (parseFields f r4).map (fun p => ((key, v) :: p.1, p.2))
            | '\x7d' :: r4 => some ([(key, v)], r4)
            | _ => none
        | _ => none
    | _ => none

/-- Array body right after the opening bracket. -/
def parseItemsStart : Nat → Str → Option (Json × Str)
  | 0, _ => none
  | f + 1, s =>
    match skipWs s with
    | ']' :: rest => some (Json.arr [], rest)
    | other => (parseItems f other).map (fun p => (Json.arr p.1, p.2))

/-- Non-empty element list of a JSON array. -/
def parseItems : Nat → Str → Option (List Json × Str)
  | 0, _ => none
  | f + 1, s =>
    match parseVal f s with
    | none => none
    | some (v, r1) =>
      match skipWs r1 with
      | ',' :: r2 => (parseItems f r2).map (fun p => (v :: p.1, p.2))
      | ']' :: r2 => some ([v], r2)
      | _ => none

end

/-- `JSON.parse` on a whole text: one value and nothing but trailing
whitespace after it. -/
def jsonParse (s : Str) : Option Json :=
  match parseVal (s.length + 1) s with
  | some (v, rest) => if skipWs rest == [] then some v else none
  | none => none

/-- The suffix of the text starting at the position where the greedy regex
match of `parseResponse` begins: the first opening brace that has some
closing brace after it.  (The JS regex engine tries every start position
in order; a start succeeds exactly when it is a brace with a later
closing brace.) -/
def firstBraceSuffix : Str → Option Str
  | [] => none
  | c :: rest =>
    if c == '\x7b' && rest.contains '\x7d' then some (c :: rest)
    else firstBraceSuffix rest

/-- Truncate after the last closing brace, modelling the greedy middle of
the regex, which extends the match to the last closing brace of the
text. -/
def keepThroughLastBrace (s : Str) : Str :=
  (s.reverse.dropWhile (fun c => c != '\x7d')).reverse

/-- The span captured by the greedy regex in
`AIChangelogGenerator.parseResponse` (source line 843): from the first
opening brace (with a later closing brace) to the last closing brace. -/
def extractSpan (t : Str) : Option Str :=
  (firstBraceSuffix t).map keepThroughLastBrace

/-- `AIChangelogGenerator.parseResponse(text)` (source lines 840-852):
extract the regex span and `JSON.parse` it; `none` models the thrown
error (no span found, or invalid JSON). -/
def parseResponse (t : Str) : Option Json :=
  match extractSpan t with
  | none => none
  | some s => jsonParse s

/-- Depth-counting scan for a balanced brace span, for the span the spec
describes. -/
def balancedGo : Str → Nat → Str → Option Str
  | [], _, _ => none
  | c :: rest, depth, acc =>
    if c == '\x7d' then
      if depth == 1 then some ((c :: acc).reverse)
      else balancedGo rest (depth - 1) (c :: acc)
    else if c == '\x7b' then balancedGo rest (depth + 1) (c :: acc)
    else balancedGo rest depth (c :: acc)

/-- Modelled from the spec: "the client must tolerate surrounding prose by
extracting the first balanced \x7b...\x7d span from the raw text before
parsing" — scan to the first opening brace and take characters until the
brace depth returns to zero. -/
def firstBalancedSpan (t : Str) : Option Str :=
  match t.dropWhile (fun c => c != '\x7b') with
  | [] => none
  | c :: rest => balancedGo (c :: rest) 0 []

/-- One changelog entry as produced by the AI client (data model of the
spec).  `none` models an absent field; the empty string models the JS
falsy empty string. -/
structure Entry where
  type : String
  category : Option String
  scope : String
  description : String
  prNumber : Option String
  ticketId : Option String
  details : List String
deriving DecidableEq, Repr

/-- The fixed `CATEGORIES` list (source lines 859-870), which is also the
formatter's `categoryOrder`. -/
def CATEGORIES : List String :=
  ["✨ New Features", "🚀 Features", "🎯 Enhancements", "🛠️ Improvements",
   "🐛 Bug Fixes", "⚡ Performance", "♻️ Refactoring", "📚 Documentation",
   "🧪 Testing", "🔧 Configuration"]

/-- The `typeToCategory` table of `ChangelogFormatter` (source lines
879-887). -/
def typeToCategory (t : String) : Option String :=
  if t == "feat" then some "✨ New Features"
  else if t == "fix" then some "🐛 Bug Fixes"
  else if t == "improve" then some "🛠️ Improvements"
  else if t == "refactor" then some "♻️ Refactoring"
  else if t == "docs" then some "📚 Documentation"
  else if t == "test" then some "🧪 Testing"
  else if t == "breaking" then some "⚠️ BREAKING CHANGES"
  else none

/-- Fallback category from the entry type (`this.typeToCategory[entry.type]
|| 'Other Changes'`). -/
def typeFallback (e : Entry) : String :=
  match typeToCategory e.type with
  | some c => c
  | none => "Other Changes"

/-- The effective category of an entry (`entry.category ||
this.typeToCategory[entry.type] || 'Other Changes'`, source line 958),
with the JS falsiness of the empty string modelled explicitly. -/
def categoryOf (e : Entry) : String :=
  match e.category with
  | some c => if c == "" then typeFallback e else c
  | none => typeFallback e

/-- Insert a value into an association list from keys to value lists,
appending to the existing group of the key or appending a new group at
the end: the behaviour of `acc[category].push(entry)` on a JS object,
whose keys enumerate in insertion order. -/
def upsert {α : Type} (k : String) (v : α) :
    List (String × List α) → List (String × List α)
  | [] => [(k, [v])]
  | (k1, vs) :: rest =>
    if k1 == k then (k1, vs ++ [v]) :: rest else (k1, vs) :: upsert k v rest

/-- `list.reduce` grouping into a JS object, keys in insertion order. -/
def groupBy {α : Type} (key : α → String) (l : List α) : List (String × List α) :=
  l.foldl (fun acc e => upsert (key e) e acc) []

/-- JS property read `grouped[category]` on the grouping object. -/
def lookupGroup {α : Type} (k : String) :
    List (String × List α) → Option (List α)
  | [] => none
  | (k1, vs) :: rest => if k1 == k then some vs else lookupGroup k rest

/-- `ChangelogFormatter.groupByCategory(entries)` (source lines 956-963). -/
def groupByCategory (entries : List Entry) : List (String × List Entry) :=
  groupBy categoryOf entries

/-- `ChangelogFormatter.isBreakingCategory` (source lines 1191-1193):
`category.includes('BREAKING')`. -/
def isBreakingCategory (c : String) : Bool :=
  isInfixB "BREAKING".data c.data

/-- Concatenation of a list of markdown pieces (successive `output +=`). -/
def strJoin (l : List String) : String := l.foldr (· ++ ·) ""

/-- Formatter-level configuration: detected platform, repository URL (the
empty string when `git config` yields nothing) and optional ticket URL
template — the parts of `CONFIG.git` that `formatMetadata` reads. -/
structure FmtConfig where
  platform : String
  repoUrl : String
  ticketUrlPattern : Option String
deriving DecidableEq, Repr

/-- Replace the first occurrence of `pat` in a character list, as JS
`String.prototype.replace` with a string pattern does. -/
def replaceFirstGo (pat repl : Str) : Str → Str
  | [] => []
  | c :: rest =>
    if isPreB pat (c :: rest) then repl ++ (c :: rest).drop pat.length
    else c :: replaceFirstGo pat repl rest

/-- Replace the first occurrence of `pat` in `s` by `repl`. -/
def replaceFirstStr (pat repl s : String) : String :=
  String.mk (replaceFirstGo pat.data repl.data s.data)

/-- `ChangelogFormatter.formatMetadata(entry)` (source lines 1119-1162),
with the repository URL and platform supplied through `FmtConfig`. -/
def formatMetadata (cfg : FmtConfig) (e : Entry) : String :=
  let md1 :=
    match e.prNumber with
    | some pr =>
      if pr == "" then ""
      else
        let prUrl :=
          if cfg.platform == "gitlab" then cfg.repoUrl ++ "/-/merge_requests/" ++ pr
          else if cfg.platform == "bitbucket" then cfg.repoUrl ++ "/pull-requests/" ++ pr
          else if cfg.platform == "azure" then cfg.repoUrl ++ "/pullrequest/" ++ pr
          else if cfg.repoUrl != "" then cfg.repoUrl ++ "/pull/" ++ pr
          else "../../pull/" ++ pr
        " ([#" ++ pr ++ "](" ++ prUrl ++ "))"
    | none => ""
  let md2 :=
    match e.ticketId with
    | some t =>
      if t == "" then ""
      else
        match cfg.ticketUrlPattern with
        | some pat =>
          if pat == "" then " `" ++ t ++ "`"
          else " [" ++ t ++ "](" ++ replaceFirstStr "$\x7bticketId\x7d" t pat ++ ")"
        | none => " `" ++ t ++ "`"
    | none => ""
  md1 ++ md2

/-- `ChangelogFormatter.formatEntry(entry, includeScope)` (source lines
1094-1112). -/
def formatEntry (cfg : FmtConfig) (e : Entry) (includeScope : Bool) : String :=
  "- " ++ (if includeScope && e.scope != "" then "**" ++ e.scope ++ "**: " else "")
    ++ e.description ++ formatMetadata cfg e ++ "\n"
    ++ (if e.details != [] then strJoin (e.details.map (fun d => "  - " ++ d ++ "\n"))
        else "")

/-- `ChangelogFormatter.formatBreakingEntry(entry)` (source lines
998-1012). -/
def formatBreakingEntry (cfg : FmtConfig) (e : Entry) : String :=
  "#### " ++ e.scope ++ "\n\n" ++ "**" ++ e.description ++ "**"
    ++ formatMetadata cfg e ++ "\n"
    ++ (if e.details != [] then
          "\n**Migration:**\n" ++ strJoin (e.details.map (fun d => "- " ++ d ++ "\n"))
        else "")
    ++ "\n"

/-- `ChangelogFormatter.formatBreakingChanges(entries)` (source lines
980-991): filter by `type === 'breaking'`, independent of `category`. -/
def formatBreakingChanges (cfg : FmtConfig) (entries : List Entry) : String :=
  let breakingChanges := entries.filter (fun e => e.type == "breaking")
  if breakingChanges == [] then ""
  else "### ⚠️ BREAKING CHANGES\n\n"
    ++ strJoin (breakingChanges.map (formatBreakingEntry cfg)) ++ "\n"

/-- The scope key used by `formatByScopeGroups` (`entry.scope ||
'General'`). -/
def scopeKey (e : Entry) : String := if e.scope == "" then "General" else e.scope

/-- `ChangelogFormatter.formatByScopeGroups(entries)` (source lines
1064-1086). -/
def formatByScopeGroups (cfg : FmtConfig) (entries : List Entry) : String :=
  strJoin ((groupBy scopeKey entries).map (fun g =>
    (if g.1 != "General" then "#### " ++ g.1 ++ "\n\n" else "")
      ++ strJoin (g.2.map (fun e => formatEntry cfg e (g.1 == "General")))
      ++ "\n"))

/-- `ChangelogFormatter.formatCategory(category, entries)` (source lines
1044-1057). -/
def formatCategory (cfg : FmtConfig) (category : String) (entries : List Entry) : String :=
  "### " ++ category ++ "\n\n"
    ++ (if entries.length > 5 then formatByScopeGroups cfg entries
        else strJoin (entries.map (fun e => formatEntry cfg e true)))
    ++ "\n"

/-- `ChangelogFormatter.formatCategories(grouped)` (source lines
1019-1036): known categories in canonical order, then the remaining
groups in insertion order, breaking categories skipped in both passes. -/
def formatCategories (cfg : FmtConfig) (grouped : List (String × List Entry)) : String :=
  strJoin (CATEGORIES.map (fun category =>
      match lookupGroup category grouped with
      | some es => if !(isBreakingCategory category) then formatCategory cfg category es else ""
      | none => ""))
    ++ strJoin (grouped.map (fun g =>
      if !(CATEGORIES.contains g.1) && !(isBreakingCategory g.1) then
        formatCategory cfg g.1 g.2
      else ""))

/-- Digits of a decimal string to a number: models `Number(...)` on the
all-digit strings produced by the version regex. -/
def strToNat (s : String) : Nat := digitsToNat s.data

/-- One line of the changelog matched against the version-header regex
(anchored "## [" then three dot-separated digit groups then "]"). -/
def parseVersionCore (s : Str) : Option Str :=
  let d1 := s.takeWhile Char.isDigit
  if d1 == [] then none
  else
    match s.dropWhile Char.isDigit with
    | '.' :: r1 =>
      let d2 := r1.takeWhile Char.isDigit
      if d2 == [] then none
      else
        match r1.dropWhile Char.isDigit with
        | '.' :: r2 =>
          let d3 := r2.takeWhile Char.isDigit
          if d3 == [] then none
          else
            match r2.dropWhile Char.isDigit with
            | ']' :: _ => some (d1 ++ '.' :: d2 ++ '.' :: d3)
            | _ => none
        | _ => none
    | _ => none

/-- The captured version of one changelog line, if the line matches the
multiline-anchored regex of `getNextVersion`. -/
def versionOfLine (line : String) : Option String :=
  match line.data with
  | '#' :: '#' :: ' ' :: '[' :: rest => (parseVersionCore rest).map String.mk
  | _ => none

/-- JS `String.prototype.split` with a single-character separator,
keeping empty segments. -/
def splitOnChar (sep : Char) : Str → List Str
  | [] => [[]]
  | c :: rest =>
    if c == sep then [] :: splitOnChar sep rest
    else
      match splitOnChar sep rest with
      | [] => [[c]]
      | s :: ss => (c :: s) :: ss

/-- All version strings captured in the changelog, in file order (the
`while` loop collecting `versionRegex.exec` matches, source lines
899-905). -/
def extractVersions (text : String) : List String :=
  ((splitOnChar '\n' text.data).map String.mk).filterMap versionOfLine

/-- `ChangelogFormatter.getNextVersion()` (source lines 894-922).  The
changelog file content is a parameter (`none` models a missing
`CHANGELOG.md`), as is `CONFIG.output.shouldIncureaseVersion`. -/
def getNextVersion (changelog : Option String) (shouldIncureaseVersion : Bool) : String :=
  match changelog with
  | some text =>
    match (extractVersions text).head? with
    | some latestVersion =>
      let parts := (splitOnChar '.' latestVersion.data).map String.mk
      let major := strToNat (parts.getD 0 "")
      let minor := strToNat (parts.getD 1 "")
      let patch := strToNat (parts.getD 2 "")
      if !shouldIncureaseVersion then latestVersion
      else toString major ++ "." ++ toString minor ++ "." ++ toString (patch + 1)
    | none => "0.0.1"
  | none => "0.0.1"

/-- `ChangelogFormatter.formatHeader(version, date)` (source lines
971-973). -/
def formatHeader (version date : String) : String :=
  "## [" ++ version ++ "] - " ++ date ++ "\n\n"

/-- `ChangelogFormatter.formatMarkdown(entries, baseBranch)` (source lines
930-949); the current date and the changelog file content (read by
`getNextVersion`) are parameters.  `baseBranch` is accepted and unused,
exactly as in the source. -/
def formatMarkdown (cfg : FmtConfig) (today : String) (changelogFile : Option String)
    (shouldIncureaseVersion : Bool) (entries : List Entry) (_baseBranch : String) : String :=
  if entries == [] then ""
  else
    formatHeader (getNextVersion changelogFile shouldIncureaseVersion) today
      ++ formatBreakingChanges cfg entries
      ++ formatCategories cfg (groupByCategory entries)

/-- Tokens of the permissive regular expressions that
`FileAnalyzer.shouldIgnore` compiles: `*` becomes `.*` (any run), a
literal `.` in the pattern stays the regex metacharacter matching any
single character, and every other pattern character matches itself.
(The analysed patterns contain no further regex metacharacters.) -/
inductive RTok where
  | anyStar : RTok
  | anyChar : RTok
  | lit (c : Char) : RTok
deriving DecidableEq, Repr

/-- Compile `pattern.replace(RE_STAR, '.*')` into tokens. -/
def compilePattern (p : Str) : List RTok :=
  p.map (fun c => if c == '*' then RTok.anyStar else if c == '.' then RTok.anyChar else RTok.lit c)

/-- Anchored regex match at the current position, with backtracking for
the `.*` token.  Every step consumes either a token or a character, so a
fuel of `tokens + characters + 1` always suffices; the fuel only makes
the recursion structural. -/
def matchHereF : Nat → List RTok → Str → Bool
  | 0, _, _ => false
  | _ + 1, [], _ => true
  | f + 1, RTok.anyStar :: ts, s =>
    matchHereF f ts s ||
      (match s with
       | [] => false
       | _ :: s1 => matchHereF f (RTok.anyStar :: ts) s1)
  | f + 1, RTok.anyChar :: ts, s =>
    (match s with
     | [] => false
     | _ :: s1 => matchHereF f ts s1)
  | f + 1, RTok.lit c :: ts, s =>
    (match s with
     | [] => false
     | d :: s1 => c == d && matchHereF f ts s1)

/-- Unanchored `regex.test(file)`: try every start position. -/
def regexTest (ts : List RTok) : Str → Bool
  | [] => matchHereF (ts.length + 1) ts []
  | c :: rest =>
    matchHereF (ts.length + (c :: rest).length + 1) ts (c :: rest) || regexTest ts rest

/-- JS `s.endsWith(post)` on the character-level view. -/
def endsWithB (post s : Str) : Bool := isPreB post.reverse s.reverse

/-- `FileAnalyzer.shouldIgnore(file)` (source lines 1209-1227), with the
effective pattern list passed explicitly. -/
def shouldIgnore (patterns : List String) (file : String) : Bool :=
  patterns.any (fun pattern =>
    if endsWithB "/".data pattern.data then isPreB pattern.data file.data
    else if pattern.data.contains '*' then
      regexTest (compilePattern pattern.data) file.data
    else isInfixB pattern.data file.data || endsWithB pattern.data file.data)

/-- The two fields of `CONFIG.output` that `OutputHandler.writeChangelog`
reads. -/
structure OutputConfig where
  file : String
  appendToExisting : Bool
deriving DecidableEq, Repr

/-- One step of collapsing newline runs: a maximal run of newlines of
length at least three becomes exactly two, modelling
`existing.replace(RE_3NL, NLNL)` (source line 1387). -/
def collapseGo : Nat → Str → Str
  | 0, s => s
  | _ + 1, [] => []
  | fuel + 1, c :: rest =>
    if c == '\n' then
      let run := 1 + (rest.takeWhile (fun d => d == '\n')).length
      List.replicate (min run 2) '\n' ++ collapseGo fuel (rest.dropWhile (fun d => d == '\n'))
    else c :: collapseGo fuel rest

/-- Collapse every run of three or more newlines to a blank line. -/
def collapseBlankLines (s : String) : String :=
  String.mk (collapseGo s.data.length s.data)

/-- Whitespace class of the header regex. -/
def isWsChar (c : Char) : Bool := c == ' ' || c == '\t' || c == '\n' || c == '\r'

/-- The match of the anchored header regex ("# Changelog" followed by
whitespace ending in at least one newline): returns the matched prefix
and the remainder.  The greedy whitespace is trimmed back to the last
newline, as the regex requires the match to end with a newline run. -/
def changelogHeaderSplit (existing : Str) : Option (Str × Str) :=
  if isPreB "# Changelog".data existing then
    let rest := existing.drop ("# Changelog".data.length)
    let ws := rest.takeWhile isWsChar
    let wsKept := (ws.reverse.dropWhile (fun c => c != '\n')).reverse
    if wsKept.contains '\n' then
      some ("# Changelog".data ++ wsKept, existing.drop ("# Changelog".data.length + wsKept.length))
    else none
  else none

/-- The description match after the header: a first line not starting
with "#", kept together with the newline run that follows it (the
anchored lookahead-plus-line regex of source line 1371). -/
def descriptionSplit (afterHeader : Str) : Option (Str × Str) :=
  if afterHeader.head? == some '#' then none
  else
    let line := afterHeader.takeWhile (fun c => c != '\n')
    let rest := afterHeader.dropWhile (fun c => c != '\n')
    match rest with
    | [] => none
    | _ :: _ =>
      let nls := rest.takeWhile (fun c => c == '\n')
      some (line ++ nls, rest.dropWhile (fun c => c == '\n'))

/-- The insertion step of `OutputHandler.appendToChangelog` before the
blank-line cleanup. -/
def appendToChangelogData (existing content : Str) : Str :=
  match changelogHeaderSplit existing with
  | some (hdr, afterHeader) =>
    match descriptionSplit afterHeader with
    | some (desc, rest2) => hdr ++ desc ++ content ++ '\n' :: rest2
    | none => hdr ++ content ++ '\n' :: afterHeader
  | none => "# Changelog\n\n".data ++ content ++ '\n' :: existing

/-- `OutputHandler.appendToChangelog(content)` (source lines 1350-1390):
the existing changelog content is a parameter (`none` models a missing
file, replaced by the standard header). -/
def appendToChangelog (existingFile : Option String) (content : String) : String :=
  let existing :=
    match existingFile with
    | some e => e
    | none => "# Changelog\n\nAll notable changes to this project will be documented in this file.\n\n"
  collapseBlankLines (String.mk (appendToChangelogData existing.data content.data))

/-- `OutputHandler.writeNewFile(content, baseBranch)` (source lines
1397-1416): the standalone preview document.  It never reads the previous
file content. -/
def writeNewFile (repoUrl today content baseBranch : String) : String :=
  let compareUrl := repoUrl ++ "/compare/" ++ replaceFirstStr "origin/" "" baseBranch ++ "...HEAD"
  String.intercalate "\n"
    ["# Changelog Preview\n", content, "\n---\n",
     "**Full Changelog**: [Compare changes](" ++ compareUrl ++ ")\n",
     "*Generated on " ++ today ++ "*\n"]

/-- `OutputHandler.writeChangelog(content, baseBranch)` (source lines
1334-1344): the content written to `CONFIG.output.file`. -/
def writeChangelog (cfg : OutputConfig) (repoUrl today content baseBranch : String)
    (existingFile : Option String) : String :=
  if cfg.appendToExisting && cfg.file == "CHANGELOG.md" then
    appendToChangelog existingFile content
  else
    writeNewFile repoUrl today content baseBranch

/-- The terminal colour codes of `CONFIG.ui.colors`. -/
def colSelected : Str := "\x1b[36m".data

/-- Warning colour. -/
def colWarning : Str := "\x1b[33m".data

/-- Success colour. -/
def colSuccess : Str := "\x1b[32m".data

/-- Reset colour. -/
def colReset : Str := "\x1b[0m".data

/-- Lazily consume the remaining query characters inside the highlight
regex match (each gap as short as possible, case-insensitive). -/
def consumeLazy : Str → Str → Option (Str × Str)
  | [], rest => some ([], rest)
  | _ :: _, [] => none
  | d :: qs, c :: rest =>
    if c.toLower == d.toLower then (consumeLazy qs rest).map (fun p => (c :: p.1, p.2))
    else (consumeLazy (d :: qs) rest).map (fun p => (c :: p.1, p.2))

/-- Leftmost lazy match of the query-characters-in-order highlight regex:
returns the text before the match, the matched span, and the rest.
Query characters are matched literally (the branch-name queries contain
no regex metacharacters). -/
def lazyScanSpan : Str → Str → Option (Str × Str × Str)
  | _, [] => none
  | q, c :: rest =>
    match q with
    | [] => some ([], [], c :: rest)
    | d :: qs =>
      if c.toLower == d.toLower then
        match consumeLazy qs rest with
        | some (m, a) => some ([], c :: m, a)
        | none => (lazyScanSpan (d :: qs) rest).map (fun t => (c :: t.1, t.2.1, t.2.2))
      else (lazyScanSpan (d :: qs) rest).map (fun t => (c :: t.1, t.2.1, t.2.2))

/-- The global replace of `getBranchLine`: wrap every (lazy, global,
case-insensitive) match of the query-in-order regex in warning colour. -/
def highlightGo : Nat → Str → Str → Str
  | 0, _, s => s
  | fuel + 1, q, s =>
    match lazyScanSpan q s with
    | none => s
    | some (pre, m, a) => pre ++ colWarning ++ m ++ colReset ++ highlightGo fuel q a

/-- The mutable state of `BranchSelector` (constructor, source lines
432-438). -/
structure SelectorState where
  selectedIndex : Nat
  searchQuery : Str
  scrollOffset : Nat
  allBranches : List Str
  filteredBranches : List Str
deriving DecidableEq, Repr

/-- `BranchSelector.getBranchLine(index)` (source lines 580-609); the
reflog-recent branch list is a parameter.  The JS array indexing is
modelled with an optional read. -/
def getBranchLine (recentBranches filtered : List Str) (selectedIndex : Nat)
    (searchQuery : Str) (index : Nat) : Option Str :=
  (filtered.get? index).map (fun branch =>
    let isSel := index == selectedIndex
    let pre := if isSel then "▶ ".data else "  ".data
    let highlight := if isSel then colSelected else []
    let label :=
      if branch == "master".data || branch == "main".data then
        ' ' :: colWarning ++ "(default)".data ++ colReset
      else if recentBranches.contains branch then
        ' ' :: colSuccess ++ "(recent)".data ++ colReset
      else []
    let displayName :=
      if searchQuery != [] && !isSel then highlightGo branch.length searchQuery branch
      else branch
    pre ++ highlight ++ (if isSel then branch else displayName) ++ label ++ colReset)

/-- `BranchSelector.display()` (source lines 527-573): returns the
buffered output lines (`none` would signal an out-of-range branch read)
together with the updated selector state. -/
def display (maxBranchesDisplay : Nat) (recentBranches : List Str) (s : SelectorState) :
    Option (List Str) × SelectorState :=
  let searchDisplay :=
    if s.searchQuery != [] then "🔎 Search: ".data ++ s.searchQuery ++ "_".data
    else "🔎 Type to search...".data
  let headerLines :=
    ["\n🔍 Search and select branch to compare against:".data,
     "   (Type to search, ↑↓ to navigate, Enter to select, Esc to clear, q to quit)\n".data,
     "   ".data ++ searchDisplay ++ "\n".data]
  let filtered := filterBranches s.allBranches s.searchQuery
  let s1 := { s with filteredBranches := filtered }
  if filtered.isEmpty then
    (some (headerLines ++ ["   No branches match your search".data]), s1)
  else
    let s2 :=
      if s1.selectedIndex ≥ filtered.length then
        { s1 with selectedIndex := 0, scrollOffset := 0 }
      else s1
    let start := s2.scrollOffset
    let stop := min (start + maxBranchesDisplay) filtered.length
    match ((List.range (stop - start)).map (fun k => start + k)).mapM
        (getBranchLine recentBranches filtered s2.selectedIndex s2.searchQuery) with
    | none => (none, s2)
    | some branchLines =>
      let scrollLines :=
        if filtered.length > maxBranchesDisplay then
          ["\n   Showing ".data ++ (toString (start + 1)).data ++ "-".data
            ++ (toString stop).data ++ " of ".data ++ (toString filtered.length).data
            ++ " matches".data]
        else []
      (some (headerLines ++ branchLines ++ scrollLines), s2)

/-- `BranchSelector.selectCurrent()` (source lines 658-666); the local
branch list is a parameter.  Returns `none` when the filtered list is
empty (the early `return null`). -/
def selectCurrent (localBranches : List Str) (s : SelectorState) : Option Str :=
  if s.filteredBranches.length == 0 then none
  else
    (s.filteredBranches.get? s.selectedIndex).map (fun selected =>
      if localBranches.contains selected then selected
      else "origin/".data ++ selected)

/-- `a` occurs contiguously inside the string `b`. -/
def strInfix (a b : String) : Prop := ∃ u v : Str, b.data = u ++ a.data ++ v

/-! ## Lemmas about subsequences and the fuzzy score -/

theorem subseq_of_cons_left (b : Str) : ∀ d ds, isSubseq (d :: ds) b = true →
    isSubseq ds b = true := by
  induction b with
  | nil => intro d ds h; simp [isSubseq] at h
  | cons x xs ih =>
    intro d ds h
    rw [isSubseq] at h
    cases ds with
    | nil => simp [isSubseq]
    | cons e es =>
      rw [isSubseq]
      by_cases hex : e == x
      · simp only [hex, if_true]
        by_cases hdx : d == x
        · simp only [hdx, if_true] at h
          exact ih e es h
        · simp only [hdx, if_false] at h
          have h2 := ih d (e :: es) h
          have h3 := ih e es h2
          exact h3
      · simp only [hex, if_false]
        by_cases hdx : d == x
        · simp only [hdx, if_true] at h
          exact h
        · simp only [hdx, if_false] at h
          exact ih d (e :: es) h

theorem subseq_cons_right (b : Str) (q : Str) (c : Char)
    (h : isSubseq q b = true) : isSubseq q (c :: b) = true := by
  cases q with
  | nil => simp [isSubseq]
  | cons d ds =>
    rw [isSubseq]
    by_cases hdc : d == c
    · simp only [hdc, if_true]
      exact subseq_of_cons_left b d ds h
    · simp only [hdc, if_false]
      exact h

theorem subseq_refl_append (q v : Str) : isSubseq q (q ++ v) = true := by
  induction q with
  | nil => simp [isSubseq]
  | cons c cs ih => simp [isSubseq, ih]

theorem subseq_of_middle (u q v : Str) : isSubseq q (u ++ q ++ v) = true := by
  induction u with
  | nil => simpa using subseq_refl_append q v
  | cons c cs ih => exact subseq_cons_right _ _ _ ih

theorem isPreB_ex {q s : Str} (h : isPreB q s = true) : ∃ r, s = q ++ r := by
  induction q generalizing s with
  | nil => exact ⟨s, rfl⟩
  | cons c cs ih =>
    cases s with
    | nil => simp [isPreB] at h
    | cons d ds =>
      rw [isPreB, Bool.and_eq_true] at h
      obtain ⟨r, hr⟩ := ih h.2
      have : c = d := by simpa using h.1
      exact ⟨r, by simp [this, hr]⟩

theorem isInfixB_ex {q : Str} : ∀ {b : Str}, isInfixB q b = true →
    ∃ u v, b = u ++ q ++ v := by
  intro b
  induction b with
  | nil =>
    intro h
    rw [isInfixB] at h
    obtain ⟨r, hr⟩ := isPreB_ex h
    exact ⟨[], r, by simpa using hr⟩
  | cons c bs ih =>
    intro h
    rw [isInfixB, Bool.or_eq_true] at h
    rcases h with h | h
    · obtain ⟨r, hr⟩ := isPreB_ex h
      exact ⟨[], r, by simpa using hr⟩
    · obtain ⟨u, v, huv⟩ := ih h
      exact ⟨c :: u, v, by simp [huv]⟩

theorem isPreB_refl_append (q v : Str) : isPreB q (q ++ v) = true := by
  induction q with
  | nil => simp [isPreB]
  | cons c cs ih => simpa [isPreB] using ih

theorem isInfixB_intro : ∀ (u q v : Str), isInfixB q (u ++ q ++ v) = true := by
  intro u
  induction u with
  | nil =>
    intro q v
    cases q with
    | nil =>
      cases v with
      | nil => rfl
      | cons c cs => simp [isInfixB, isPreB]
    | cons c cs =>
      rw [List.nil_append, List.cons_append, isInfixB]
      have := isPreB_refl_append (c :: cs) v
      rw [List.cons_append] at this
      simp [this]
  | cons c u2 ih =>
    intro q v
    rw [List.cons_append, List.cons_append, isInfixB]
    have := ih q v
    rw [List.append_assoc] at this
    simp [this]

theorem fuzzyGo_ne_zero : ∀ (lb lq : Str) (acc : Nat), fuzzyGo lb lq acc ≠ 0 →
    isSubseq lq lb = true := by
  intro lb
  induction lb with
  | nil =>
    intro lq acc h
    cases lq with
    | nil => simp [isSubseq]
    | cons d qs => simp [fuzzyGo] at h
  | cons c bs ih =>
    intro lq acc h
    cases lq with
    | nil => simp [isSubseq]
    | cons d qs =>
      rw [fuzzyGo] at h
      rw [isSubseq]
      by_cases hdc : c = d
      · subst hdc
        simp only [beq_self_eq_true, if_true] at h ⊢
        exact ih qs (acc + 1) h
      · have h1 : (c == d) = false := by simp [hdc]
        have h2 : (d == c) = false := by simp [Ne.symm hdc]
        simp only [h1, Bool.false_eq_true, if_false] at h
        simp only [h2, Bool.false_eq_true, if_false]
        exact ih (d :: qs) acc h

theorem fuzzyGo_val : ∀ (lb lq : Str) (acc : Nat),
    fuzzyGo lb lq acc = 0 ∨ fuzzyGo lb lq acc = acc + lq.length := by
  intro lb
  induction lb with
  | nil =>
    intro lq acc
    cases lq with
    | nil => right; simp [fuzzyGo]
    | cons d qs => left; simp [fuzzyGo]
  | cons c bs ih =>
    intro lq acc
    cases lq with
    | nil => right; simp [fuzzyGo]
    | cons d qs =>
      rw [fuzzyGo]
      by_cases hdc : c = d
      · subst hdc
        simp only [beq_self_eq_true, if_true]
        rcases ih qs (acc + 1) with h | h
        · left; exact h
        · right; rw [h]; simp; omega
      · have h1 : (c == d) = false := by simp [hdc]
        simp only [h1, Bool.false_eq_true, if_false]
        exact ih (d :: qs) acc

theorem splitSegs_parts : ∀ l : Str, ∃ s0 ss, splitSegs l = s0 :: ss ∧
    (∃ r, l = s0 ++ r) ∧ ∀ s ∈ ss, ∃ u v, l = u ++ s ++ v := by
  intro l
  induction l with
  | nil => exact ⟨[], [], rfl, ⟨[], rfl⟩, by simp⟩
  | cons c rest ih =>
    obtain ⟨s0, ss, hsplit, ⟨r, hr⟩, hinf⟩ := ih
    by_cases hsep : isSegSep c = true
    · refine ⟨[], splitSegs rest, by rw [splitSegs, if_pos hsep], ⟨c :: rest, rfl⟩, ?_⟩
      intro s hs
      rw [hsplit] at hs
      rcases List.mem_cons.mp hs with rfl | hs2
      · exact ⟨[c], r, by simp [hr]⟩
      · obtain ⟨u, v, huv⟩ := hinf s hs2
        exact ⟨c :: u, v, by simp [huv]⟩
    · refine ⟨c :: s0, ss, ?_, ⟨r, by simp [hr]⟩, ?_⟩
      · rw [splitSegs, if_neg hsep, hsplit]
      · intro s hs
        obtain ⟨u, v, huv⟩ := hinf s hs
        exact ⟨c :: u, v, by simp [huv]⟩

theorem subseq_of_isPreB {q s : Str} (h : isPreB q s = true) :
    isSubseq q s = true := by
  obtain ⟨r, hr⟩ := isPreB_ex h
  rw [hr]
  exact subseq_refl_append q r

theorem subseq_of_isInfixB {q b : Str} (h : isInfixB q b = true) :
    isSubseq q b = true := by
  obtain ⟨u, v, huv⟩ := isInfixB_ex h
  rw [huv]
  exact subseq_of_middle u q v

/-- Any positively scored branch contains the query as a case-insensitive
subsequence. -/
theorem score_pos_subseq {branch q : Str} (h : score branch q > 0) :
    isSubseq (lowerStr q) (lowerStr branch) = true := by
  rw [score] at h
  set lb := lowerStr branch with hlb
  set lq := lowerStr q with hlq
  by_cases h1 : (lb == lq) = true
  · have : lb = lq := by simpa using h1
    rw [this]
    simpa using subseq_refl_append lq []
  · rw [if_neg h1] at h
    by_cases h2 : isPreB lq lb = true
    · exact subseq_of_isPreB h2
    · rw [if_neg h2] at h
      by_cases h3 : (splitSegs lb).any (fun part => isPreB lq part) = true
      · rw [List.any_eq_true] at h3
        obtain ⟨part, hpart, hpre⟩ := h3
        obtain ⟨s0, ss, hsplit, ⟨r, hr⟩, hinf⟩ := splitSegs_parts lb
        rw [hsplit] at hpart
        rcases List.mem_cons.mp hpart with rfl | hpart2
        · obtain ⟨r2, hr2⟩ := isPreB_ex hpre
          rw [hr, hr2, List.append_assoc]
          exact subseq_refl_append lq (r2 ++ r)
        · obtain ⟨u, v, huv⟩ := hinf part hpart2
          obtain ⟨r2, hr2⟩ := isPreB_ex hpre
          rw [huv, hr2]
          have : u ++ (lq ++ r2) ++ v = u ++ lq ++ (r2 ++ v) := by simp
          rw [this]
          exact subseq_of_middle u lq (r2 ++ v)
      · rw [if_neg h3] at h
        by_cases h4 : isInfixB lq lb = true
        · exact subseq_of_isInfixB h4
        · rw [if_neg h4] at h
          exact fuzzyGo_ne_zero lb lq 0 (Nat.pos_iff_ne_zero.mp h)

/-- A contiguous-tier match scores at least 10. -/
theorem contiguous_score_ge {branch q : Str} (h : contiguousMatch branch q = true) :
    score branch q ≥ 10 := by
  rw [contiguousMatch] at h
  rw [score]
  by_cases h1 : (lowerStr branch == lowerStr q) = true
  · simp only [h1, if_true]; omega
  · rw [if_neg h1]
    by_cases h2 : isPreB (lowerStr q) (lowerStr branch) = true
    · simp only [h2, if_true]; omega
    · rw [if_neg h2]
      by_cases h3 : (splitSegs (lowerStr branch)).any
          (fun part => isPreB (lowerStr q) part) = true
      · simp only [h3, if_true]; omega
      · rw [if_neg h3]
        by_cases h4 : isInfixB (lowerStr q) (lowerStr branch) = true
        · simp only [h4, if_true]; omega
        · exfalso
          simp only [Bool.or_eq_true] at h
          rcases h with ((ha | hb) | hc) | hd
          · exact h1 ha
          · exact h2 hb
          · exact h3 hc
          · exact h4 hd

/-- A branch that is not a contiguous-tier match is scored by the fuzzy
loop. -/
theorem score_of_not_contiguous {branch q : Str}
    (h : contiguousMatch branch q = false) :
    score branch q = fuzzyGo (lowerStr branch) (lowerStr q) 0 := by
  rw [contiguousMatch] at h
  simp only [Bool.or_eq_false_iff] at h
  obtain ⟨⟨⟨h1, h2⟩, h3⟩, h4⟩ := h
  rw [score]
  simp only [h1, h2, h3, h4, Bool.false_eq_true, if_false]

/-! ## The stable descending sort of `filterBranches` -/

theorem mem_insertDesc {x a : Scored} : ∀ {l : List Scored},
    x ∈ insertDesc a l ↔ x = a ∨ x ∈ l := by
  intro l
  induction l with
  | nil => simp [insertDesc]
  | cons b bs ih =>
    rw [insertDesc]
    by_cases h : a.score ≥ b.score
    · simp [h]
    · rw [if_neg h]
      simp only [List.mem_cons, ih]
      tauto

theorem pairwise_insertDesc (a : Scored) {l : List Scored}
    (h : l.Pairwise (fun x y => y.score ≤ x.score)) :
    (insertDesc a l).Pairwise (fun x y => y.score ≤ x.score) := by
  induction l with
  | nil => simp [insertDesc]
  | cons b bs ih =>
    rw [List.pairwise_cons] at h
    rw [insertDesc]
    by_cases hab : a.score ≥ b.score
    · rw [if_pos hab]
      rw [List.pairwise_cons]
      constructor
      · intro y hy
        rcases List.mem_cons.mp hy with rfl | hy
        · omega
        · have := h.1 y hy
          omega
      · exact List.pairwise_cons.mpr h
    · rw [if_neg hab]
      rw [List.pairwise_cons]
      constructor
      · intro y hy
        rcases mem_insertDesc.mp hy with hy | hy
        · rw [hy]; omega
        · exact h.1 y hy
      · exact ih h.2

theorem pairwise_sortDesc : ∀ l : List Scored,
    (sortDesc l).Pairwise (fun x y => y.score ≤ x.score) := by
  intro l
  induction l with
  | nil => simp [sortDesc]
  | cons a as_ ih => exact pairwise_insertDesc a ih

theorem mem_sortDesc {x : Scored} : ∀ {l : List Scored},
    x ∈ sortDesc l ↔ x ∈ l := by
  intro l
  induction l with
  | nil => simp [sortDesc]
  | cons a as_ ih =>
    rw [sortDesc, mem_insertDesc]
    simp [ih]

/-- C2 (amended): for every non-empty query, every branch returned by
`filterBranches` contains every query character in order
(case-insensitive subsequence); and provided the query is shorter than
10 characters, every branch matching the query exactly, by prefix, by
path-segment prefix or by substring (a contiguous tier) is ranked ahead
of every branch that matches only as a pure subsequence.  (For queries of
10 or more characters the fuzzy score, which equals the query length,
reaches the substring tier of 10 and the ranking half fails; see the
counterexample.) -/
theorem filterBranches_subseq_ranking (branches : List Str) (q : Str) (hq : q ≠ []) :
    (∀ b ∈ filterBranches branches q, isSubseq (lowerStr q) (lowerStr b) = true) ∧
    (q.length ≤ 9 →
      ∀ (i j : Fin (filterBranches branches q).length), i ≤ j →
        contiguousMatch ((filterBranches branches q).get j) q = true →
        contiguousMatch ((filterBranches branches q).get i) q = true) := by
  have hfb : filterBranches branches q =
      (sortDesc ((branches.map (fun b => Scored.mk b (score b q))).filter
        (fun item => item.score > 0))).map (fun p => p.branch) := by
    rw [filterBranches, if_neg]
    simp [hq]
  have hmem : ∀ p ∈ sortDesc ((branches.map (fun b => Scored.mk b (score b q))).filter
      (fun item => item.score > 0)), p.score = score p.branch q ∧ 0 < p.score := by
    intro p hp
    rw [mem_sortDesc, List.mem_filter] at hp
    obtain ⟨hp1, hp2⟩ := hp
    rw [List.mem_map] at hp1
    obtain ⟨b0, _, rfl⟩ := hp1
    exact ⟨rfl, by simpa using hp2⟩
  have hpos : ∀ b ∈ filterBranches branches q, 0 < score b q := by
    intro b hb
    rw [hfb, List.mem_map] at hb
    obtain ⟨p, hp, rfl⟩ := hb
    obtain ⟨hps, hppos⟩ := hmem p hp
    omega
  constructor
  · intro b hb
    exact score_pos_subseq (hpos b hb)
  · intro hlen i j hij hcontig
    have hpair : (filterBranches branches q).Pairwise
        (fun b1 b2 => score b2 q ≤ score b1 q) := by
      rw [hfb]
      apply List.Pairwise.map
      · intro a b hab
        exact hab
      · exact List.Pairwise.imp_of_mem
          (fun {p1 p2} h1 h2 hr => by
            obtain ⟨e1, _⟩ := hmem p1 h1
            obtain ⟨e2, _⟩ := hmem p2 h2
            rw [← e1, ← e2]
            exact hr)
          (pairwise_sortDesc _)
    rcases lt_or_eq_of_le hij with hlt | heq
    · have hscore := (List.pairwise_iff_get.mp hpair) i j hlt
      have hj10 : 10 ≤ score ((filterBranches branches q).get j) q :=
        contiguous_score_ge hcontig
      cases hci : contiguousMatch ((filterBranches branches q).get i) q with
      | true => rfl
      | false =>
        exfalso
        have hfz := score_of_not_contiguous hci
        have hipos := hpos _ (List.get_mem _ i.1 i.2)
        rcases fuzzyGo_val (lowerStr ((filterBranches branches q).get i))
            (lowerStr q) 0 with hv | hv
        · rw [hv] at hfz; omega
        · rw [hv] at hfz
          have hql : (lowerStr q).length = q.length := List.length_map q Char.toLower
          omega
    · rw [heq]
      exact hcontig

/-- Witness for the amended C2 theorem at a concrete query and branch
list. -/
theorem filterBranches_subseq_ranking_witness :
    "feature".data ∈ filterBranches ["feature".data, "dev".data] "feat".data ∧
    isSubseq (lowerStr "feat".data) (lowerStr "feature".data) = true := by
  refine ⟨by decide, ?_⟩
  exact (filterBranches_subseq_ranking ["feature".data, "dev".data] "feat".data
    (by decide)).1 "feature".data (by decide)

/-- C2 counterexample: with the 11-character query "abcdefghijk", the
branch "xxabcdefghijk" matches by substring (score 10) yet is ranked
behind "a-b-c-d-e-f-g-h-i-j-k", which matches only as a pure subsequence
(fuzzy score 11 = query length).  This refutes the claim that
exact/prefix/substring matches always outrank pure subsequence
matches. -/
theorem filterBranches_ranking_counterexample :
    filterBranches ["a-b-c-d-e-f-g-h-i-j-k".data, "xxabcdefghijk".data]
        "abcdefghijk".data
      = ["a-b-c-d-e-f-g-h-i-j-k".data, "xxabcdefghijk".data] ∧
    isInfixB (lowerStr "abcdefghijk".data) (lowerStr "xxabcdefghijk".data) = true ∧
    contiguousMatch "a-b-c-d-e-f-g-h-i-j-k".data "abcdefghijk".data = false ∧
    isSubseq (lowerStr "abcdefghijk".data)
        (lowerStr "a-b-c-d-e-f-g-h-i-j-k".data) = true := by
  exact ⟨by decide, by decide, by decide, by decide⟩

/-! ## First-occurrence deduplication and the alphabetical sort -/

theorem mem_dedupGo {x : Str} : ∀ {l seen : List Str},
    x ∈ dedupGo seen l ↔ x ∈ l ∧ x ∉ seen := by
  intro l
  induction l with
  | nil => intro seen; simp [dedupGo]
  | cons a rest ih =>
    intro seen
    rw [dedupGo]
    by_cases ha : a ∈ seen
    · rw [if_pos ha, ih]
      constructor
      · rintro ⟨h1, h2⟩
        exact ⟨List.mem_cons_of_mem a h1, h2⟩
      · rintro ⟨h1, h2⟩
        rcases List.mem_cons.mp h1 with rfl | h1
        · exact absurd ha h2
        · exact ⟨h1, h2⟩
    · rw [if_neg ha]
      simp only [List.mem_cons, ih, List.mem_cons]
      constructor
      · rintro (rfl | ⟨h1, h2⟩)
        · exact ⟨Or.inl rfl, ha⟩
        · exact ⟨Or.inr h1, fun hx => h2 (Or.inr hx)⟩
      · rintro ⟨rfl | h1, h2⟩
        · exact Or.inl rfl
        · by_cases hxa : x = a
          · exact Or.inl hxa
          · exact Or.inr ⟨h1, by simp [hxa, h2]⟩

theorem nodup_dedupGo : ∀ (l seen : List Str), (dedupGo seen l).Nodup := by
  intro l
  induction l with
  | nil => intro seen; simp [dedupGo]
  | cons a rest ih =>
    intro seen
    rw [dedupGo]
    by_cases ha : a ∈ seen
    · rw [if_pos ha]; exact ih seen
    · rw [if_neg ha]
      rw [List.nodup_cons]
      refine ⟨fun hmem => ?_, ih (a :: seen)⟩
      have := (mem_dedupGo.mp hmem).2
      simp at this

theorem dedupGo_eq_self : ∀ {l seen : List Str}, l.Nodup →
    (∀ x ∈ l, x ∉ seen) → dedupGo seen l = l := by
  intro l
  induction l with
  | nil => intro seen _ _; rfl
  | cons a rest ih =>
    intro seen hnd hs
    rw [dedupGo, if_neg (hs a (List.mem_cons_self a rest))]
    rw [List.nodup_cons] at hnd
    congr 1
    apply ih hnd.2
    intro x hx
    simp only [List.mem_cons]
    rintro (rfl | hxs)
    · exact hnd.1 hx
    · exact hs x (List.mem_cons_of_mem a hx) hxs

theorem mem_firstDedup {x : Str} {l : List Str} : x ∈ firstDedup l ↔ x ∈ l := by
  rw [firstDedup, mem_dedupGo]
  simp

theorem nodup_firstDedup (l : List Str) : (firstDedup l).Nodup :=
  nodup_dedupGo l []

theorem firstDedup_eq_self {l : List Str} (h : l.Nodup) : firstDedup l = l :=
  dedupGo_eq_self h (by simp)

theorem perm_insertAsc (a : Str) : ∀ l : List Str, (insertAsc a l).Perm (a :: l) := by
  intro l
  induction l with
  | nil => simp [insertAsc]
  | cons b bs ih =>
    rw [insertAsc]
    by_cases h : lexLt a b = true
    · rw [if_pos h]
    · rw [if_neg h]
      exact List.Perm.trans (List.Perm.cons b ih) (List.Perm.swap a b bs)

theorem perm_sortAsc : ∀ l : List Str, (sortAsc l).Perm l := by
  intro l
  induction l with
  | nil => simp [sortAsc]
  | cons a as_ ih =>
    rw [sortAsc]
    exact (perm_insertAsc a (sortAsc as_)).trans (List.Perm.cons a ih)

theorem mem_sortAsc {x : Str} {l : List Str} : x ∈ sortAsc l ↔ x ∈ l :=
  (perm_sortAsc l).mem_iff

/-- C5 (amended): `buildBranchList` returns, deduplicated keeping first
occurrences (here the list is already duplicate-free): first the first of
master/main that exists locally or remotely — or the literal "master"
when neither exists, in which case the head of the list is a branch that
exists nowhere; then the reflog-recent branches that are neither the
default branch nor absent from the local/remote union, in recency order;
then the remaining union branches that are neither priority names nor
recent, alphabetically.  Branches in the union are not all listed: both
of master/main are excluded from the alphabetical remainder even when
only one of them is placed first. -/
theorem buildBranchList_spec (localBranches remoteBranches recentBranches : List Str)
    (h : recentBranches.Nodup) :
    buildBranchList localBranches remoteBranches recentBranches =
      defaultBranch localBranches remoteBranches ::
        (recentBranches.filter (fun b => b ≠ defaultBranch localBranches remoteBranches
            && b ∈ firstDedup (localBranches ++ remoteBranches))
          ++ otherBranches localBranches remoteBranches recentBranches) ∧
    (buildBranchList localBranches remoteBranches recentBranches).head? =
      some (defaultBranch localBranches remoteBranches) ∧
    (defaultBranch localBranches remoteBranches = "master".data ∨
     defaultBranch localBranches remoteBranches = "main".data) := by
  have hdp : defaultBranch localBranches remoteBranches ∈ priorityBranches := by
    rw [defaultBranch]
    cases hf : priorityBranches.find? (fun b => b ∈ localBranches || b ∈ remoteBranches) with
    | none => simp [priorityBranches]
    | some b => exact List.mem_of_find?_eq_some hf
  have hnodup : (defaultBranch localBranches remoteBranches ::
      (recentBranches.filter (fun b => b ≠ defaultBranch localBranches remoteBranches
          && b ∈ firstDedup (localBranches ++ remoteBranches))
        ++ otherBranches localBranches remoteBranches recentBranches)).Nodup := by
    rw [List.nodup_cons, List.nodup_append]
    refine ⟨?_, List.Nodup.filter _ h, ?_, ?_⟩
    · intro hmem
      rcases List.mem_append.mp hmem with hm | hm
      · have := (List.mem_filter.mp hm).2
        simp at this
      · rw [otherBranches, mem_sortAsc] at hm
        have := (List.mem_filter.mp hm).2
        rw [Bool.and_eq_true] at this
        have h1 := this.1
        simp [hdp] at h1
    · rw [otherBranches]
      exact ((perm_sortAsc _).nodup_iff).mpr (List.Nodup.filter _ (nodup_firstDedup _))
    · intro x hx1 hx2
      have hxr : x ∈ recentBranches := (List.mem_filter.mp hx1).1
      rw [otherBranches, mem_sortAsc] at hx2
      have := (List.mem_filter.mp hx2).2
      rw [Bool.and_eq_true] at this
      have h2 := this.2
      simp [hxr] at h2
  have hmain : buildBranchList localBranches remoteBranches recentBranches =
      defaultBranch localBranches remoteBranches ::
        (recentBranches.filter (fun b => b ≠ defaultBranch localBranches remoteBranches
            && b ∈ firstDedup (localBranches ++ remoteBranches))
          ++ otherBranches localBranches remoteBranches recentBranches) := by
    rw [buildBranchList]
    exact dedupGo_eq_self hnodup (by simp)
  refine ⟨hmain, ?_, by simpa [priorityBranches] using hdp⟩
  rw [hmain]
  rfl

/-- Witness for the amended C5 theorem on a concrete repository state. -/
theorem buildBranchList_spec_witness :
    List.Nodup ["zeta".data] ∧
    (buildBranchList ["main".data, "zeta".data, "alpha".data] ["beta".data]
        ["zeta".data]).head? = some "main".data := by
  refine ⟨by decide, ?_⟩
  have hw := (buildBranchList_spec ["main".data, "zeta".data, "alpha".data]
    ["beta".data] ["zeta".data] (by decide)).2.1
  rw [hw]
  decide

/-- C5 counterexample: with local branch list ["dev"], no remote branches
and no recent branches, the head of the built list is the literal
"master", which exists neither locally nor remotely — refuting both the
claim that the result is a subset of the local/remote union and the
claim that the head of the list exists locally or remotely. -/
theorem buildBranchList_head_counterexample :
    (buildBranchList ["dev".data] [] []).head? = some "master".data ∧
    ¬("master".data ∈ ["dev".data] ++ ([] : List Str)) := by
  exact ⟨by decide, by decide⟩

/-! ## Diff capture (C6) -/

theorem isPreB_of_ne_head (p : Char) (c : Char) (r : Str) (h : ¬ p = c) :
    isPreB [p] (c :: r) = false := by
  rw [isPreB]
  simp [h]

theorem noSpace_of_kind {l : Str}
    (h : (isPreB "@@".data l || isPreB "+".data l || isPreB "-".data l
      || l == []) = true) :
    isPreB " ".data l = false := by
  have hsp : " ".data = [' '] := rfl
  simp only [Bool.or_eq_true] at h
  rcases h with ((h | h) | h) | h
  · obtain ⟨r, rfl⟩ := isPreB_ex h
    rw [hsp]
    exact isPreB_of_ne_head ' ' '@' _ (by decide)
  · obtain ⟨r, rfl⟩ := isPreB_ex h
    rw [hsp]
    exact isPreB_of_ne_head ' ' '+' _ (by decide)
  · obtain ⟨r, rfl⟩ := isPreB_ex h
    rw [hsp]
    exact isPreB_of_ne_head ' ' '-' _ (by decide)
  · have : l = [] := by simpa using h
    rw [this, hsp]
    rfl

theorem data_atat : "@@".data = ['@', '@'] := rfl

theorem data_plus : "+".data = ['+'] := rfl

theorem data_minus : "-".data = ['-'] := rfl

theorem data_space : " ".data = [' '] := rfl

theorem getFileDiffGo_count : ∀ (lines : List Str) (inHunk : Bool) (hc : Nat),
    ((getFileDiffGo lines inHunk hc).filter
      (fun l => isPreB "@@".data l)).length ≤ 3 - hc := by
  intro lines
  induction lines with
  | nil => intro inHunk hc; simp [getFileDiffGo]
  | cons line rest IH =>
    intro inHunk hc
    rw [getFileDiffGo]
    simp only [data_atat, data_plus, data_minus, data_space] at *
    by_cases h1 : isPreB ['@', '@'] line = true
    · rw [if_pos h1]
      by_cases h2 : hc ≥ 3
      · rw [if_pos h2]; simp
      · rw [if_neg h2]
        rw [List.filter_cons]
        simp only [h1, if_true]
        have h5 := IH true (hc + 1)
        simp only [List.length_cons]
        omega
    · rw [if_neg h1]
      by_cases h2 : (inHunk && (isPreB ['+'] line || isPreB ['-'] line)) = true
      · rw [if_pos h2, List.filter_cons]
        simp only [h1, Bool.false_eq_true, if_false]
        exact IH inHunk hc
      · rw [if_neg h2]
        by_cases h3 : (inHunk && line == []) = true
        · rw [if_pos h3, List.filter_cons]
          simp only [h1, Bool.false_eq_true, if_false]
          exact IH inHunk hc
        · rw [if_neg h3]
          by_cases h4 : (!(isPreB [' '] line)) = true
          · rw [if_pos h4]; exact IH false hc
          · rw [if_neg h4]; exact IH inHunk hc

theorem getFileDiffGo_kinds : ∀ (lines : List Str) (inHunk : Bool) (hc : Nat),
    (getFileDiffGo lines inHunk hc).all (fun l => isPreB "@@".data l
      || isPreB "+".data l || isPreB "-".data l || l == []) = true := by
  intro lines
  induction lines with
  | nil => intro inHunk hc; simp [getFileDiffGo]
  | cons line rest IH =>
    intro inHunk hc
    rw [getFileDiffGo]
    simp only [data_atat, data_plus, data_minus, data_space] at *
    by_cases h1 : isPreB ['@', '@'] line = true
    · rw [if_pos h1]
      by_cases h2 : hc ≥ 3
      · rw [if_pos h2]; simp
      · rw [if_neg h2, List.all_cons]
        have hpred : (isPreB ['@', '@'] line || isPreB ['+'] line
            || isPreB ['-'] line || line == []) = true := by simp [h1]
        rw [hpred, Bool.true_and]
        exact IH true (hc + 1)
    · rw [if_neg h1]
      by_cases h2 : (inHunk && (isPreB ['+'] line || isPreB ['-'] line)) = true
      · rw [if_pos h2, List.all_cons]
        have h22 : (isPreB ['+'] line || isPreB ['-'] line) = true := by
          simp only [Bool.and_eq_true] at h2; exact h2.2
        have hpred : (isPreB ['@', '@'] line || isPreB ['+'] line
            || isPreB ['-'] line || line == []) = true := by
          simp only [Bool.or_eq_true] at h22
          rcases h22 with hb | hb <;> simp [hb]
        rw [hpred, Bool.true_and]
        exact IH inHunk hc
      · rw [if_neg h2]
        by_cases h3 : (inHunk && line == []) = true
        · rw [if_pos h3, List.all_cons]
          have h32 : (line == []) = true := by
            simp only [Bool.and_eq_true] at h3; exact h3.2
          have hpred : (isPreB ['@', '@'] line || isPreB ['+'] line
              || isPreB ['-'] line || line == []) = true := by simp [h32]
          rw [hpred, Bool.true_and]
          exact IH inHunk hc
        · rw [if_neg h3]
          by_cases h4 : (!(isPreB [' '] line)) = true
          · rw [if_pos h4]; exact IH false hc
          · rw [if_neg h4]; exact IH inHunk hc

theorem getFileDiffGo_head : ∀ (lines : List Str) (hc : Nat),
    isPreB "@@".data ((getFileDiffGo lines false hc).headD "@@".data) = true := by
  intro lines
  induction lines with
  | nil =>
    intro hc
    rw [getFileDiffGo]
    decide
  | cons line rest IH =>
    intro hc
    rw [getFileDiffGo]
    simp only [data_atat, data_plus, data_minus, data_space] at *
    by_cases h1 : isPreB ['@', '@'] line = true
    · rw [if_pos h1]
      by_cases h2 : hc ≥ 3
      · rw [if_pos h2]; decide
      · rw [if_neg h2]
        simpa using h1
    · rw [if_neg h1]
      simp only [Bool.false_and, Bool.false_eq_true, if_false]
      by_cases h4 : (!(isPreB [' '] line)) = true
      · rw [if_pos h4]; exact IH hc
      · rw [if_neg h4]; exact IH hc

/-- C6: for every raw diff, the captured per-file diff keeps at most 3
hunk marker lines, contains no space-prefixed (context) line anywhere,
keeps only hunk markers, added/removed lines and blank lines, and the
first captured line (if any) is a hunk marker — capture only happens
inside a hunk opened by a marker. -/
theorem getFileDiff_caps (lines : List Str) :
    ((getFileDiffLines lines).filter (fun l => isPreB "@@".data l)).length ≤ 3 ∧
    (getFileDiffLines lines).all (fun l => !(isPreB " ".data l)) = true ∧
    (getFileDiffLines lines).all (fun l => isPreB "@@".data l || isPreB "+".data l
      || isPreB "-".data l || l == []) = true ∧
    isPreB "@@".data ((getFileDiffLines lines).headD "@@".data) = true := by
  refine ⟨?_, ?_, getFileDiffGo_kinds lines false 0, getFileDiffGo_head lines 0⟩
  · simpa using getFileDiffGo_count lines false 0
  · rw [List.all_eq_true]
    intro l hl
    have hk := getFileDiffGo_kinds lines false 0
    rw [List.all_eq_true] at hk
    have := noSpace_of_kind (hk l hl)
    simp [this]

/-- C7: version derivation.  If the most recently encountered version
header of the existing changelog (the first match in file order, headers
being in reverse chronological order) is `## [1.2.3]`, `getNextVersion`
returns "1.2.4" when auto-increment is enabled and "1.2.3" unchanged when
it is disabled; when the changelog has no version header, or the file
does not exist, it returns "0.0.1". -/
theorem getNextVersion_spec (changelog : String) :
    ((extractVersions changelog).head? = some "1.2.3" →
      getNextVersion (some changelog) true = "1.2.4" ∧
      getNextVersion (some changelog) false = "1.2.3") ∧
    ((extractVersions changelog).head? = none →
      ∀ b, getNextVersion (some changelog) b = "0.0.1") ∧
    (∀ b, getNextVersion none b = "0.0.1") := by
  refine ⟨?_, ?_, fun b => rfl⟩
  · intro h
    constructor
    · rw [getNextVersion, h]
      rfl
    · rw [getNextVersion, h]
      rfl
  · intro h b
    rw [getNextVersion, h]

/-- Witness for the C7 theorem on concrete changelog contents. -/
theorem getNextVersion_spec_witness :
    getNextVersion (some "## [1.2.3] - 2024-01-01\nbody") true = "1.2.4" ∧
    getNextVersion (some "## [1.2.3] - 2024-01-01\nbody") false = "1.2.3" ∧
    getNextVersion (some "no header here") true = "0.0.1" := by
  refine ⟨?_, ?_, ?_⟩
  · exact ((getNextVersion_spec "## [1.2.3] - 2024-01-01\nbody").1 (by rfl)).1
  · exact ((getNextVersion_spec "## [1.2.3] - 2024-01-01\nbody").1 (by rfl)).2
  · exact (getNextVersion_spec "no header here").2.1 (by rfl) true

/-- C10: in `shouldIgnore`, a pattern containing `*` is compiled by
replacing only `*` with `.*` and leaving `.` unescaped, so a literal dot
in the pattern matches any character: the path "admin-js" is ignored
under the single pattern "*.min.js" even though it neither ends with nor
contains ".min.js". -/
theorem shouldIgnore_star_wildcard_dot :
    shouldIgnore ["*.min.js"] "admin-js" = true ∧
    endsWithB ".min.js".data "admin-js".data = false ∧
    isInfixB ".min.js".data "admin-js".data = false := by
  exact ⟨by decide, by decide, by decide⟩

/-- C9: `writeChangelog` takes the append-into-existing-changelog path
only when the configured output file is exactly "CHANGELOG.md" and
`appendToExisting` is set; for every other output file name it writes the
standalone preview document, whose content is independent of whatever the
target file previously contained. -/
theorem writeChangelog_modes (cfg : OutputConfig)
    (repoUrl today content baseBranch : String)
    (existingFile existingFile2 : Option String) :
    (cfg.file ≠ "CHANGELOG.md" →
      writeChangelog cfg repoUrl today content baseBranch existingFile =
        writeNewFile repoUrl today content baseBranch ∧
      writeChangelog cfg repoUrl today content baseBranch existingFile =
        writeChangelog cfg repoUrl today content baseBranch existingFile2) ∧
    (cfg.file = "CHANGELOG.md" → cfg.appendToExisting = true →
      writeChangelog cfg repoUrl today content baseBranch existingFile =
        appendToChangelog existingFile content) := by
  constructor
  · intro h
    have hbe : (cfg.file == "CHANGELOG.md") = false := by simp [h]
    constructor <;>
      simp only [writeChangelog, hbe, Bool.and_false, Bool.false_eq_true, if_false]
  · intro h1 h2
    simp [writeChangelog, h1, h2]

/-- Witness for the C9 theorem on concrete configurations. -/
theorem writeChangelog_modes_witness :
    writeChangelog ⟨"preview.md", true⟩ "u" "2026-10-11" "C" "origin/main" (some "OLD") =
      writeNewFile "u" "2026-10-11" "C" "origin/main" ∧
    writeChangelog ⟨"CHANGELOG.md", true⟩ "u" "2026-10-11" "C" "origin/main"
        (some "# Changelog\n\nx\n") =
      appendToChangelog (some "# Changelog\n\nx\n") "C" := by
  constructor
  · exact ((writeChangelog_modes ⟨"preview.md", true⟩ "u" "2026-10-11" "C"
      "origin/main" (some "OLD") none).1 (by decide)).1
  · exact (writeChangelog_modes ⟨"CHANGELOG.md", true⟩ "u" "2026-10-11" "C"
      "origin/main" (some "# Changelog\n\nx\n") none).2 rfl rfl

/-- C8: whenever the filtered branch list is empty, `display` renders the
explicit no-matches message as its final output line — its early return
happens before any branch-list indexing, so the render succeeds — and
`selectCurrent` returns no selection instead of indexing past the end of
the list. -/
theorem display_no_matches (maxBranchesDisplay : Nat)
    (recentBranches localBranches : List Str) (s s2 : SelectorState)
    (h : filterBranches s.allBranches s.searchQuery = [])
    (h2 : s2.filteredBranches = []) :
    (∃ pre, (display maxBranchesDisplay recentBranches s).1 =
      some (pre ++ ["   No branches match your search".data])) ∧
    selectCurrent localBranches s2 = none := by
  constructor
  · refine ⟨["\n🔍 Search and select branch to compare against:".data,
      "   (Type to search, ↑↓ to navigate, Enter to select, Esc to clear, q to quit)\n".data,
      "   ".data ++ (if s.searchQuery != [] then "🔎 Search: ".data ++ s.searchQuery ++ "_".data
        else "🔎 Type to search...".data) ++ "\n".data], ?_⟩
    simp only [display, h]
    rfl
  · simp [selectCurrent, h2]

/-- Witness for the C8 theorem: the query "zzz" filters the branch list
["dev"] down to nothing. -/
theorem display_no_matches_witness :
    "   No branches match your search".data ∈
      ((display 10 [] ⟨0, "zzz".data, 0, ["dev".data], ["dev".data]⟩).1.getD []) ∧
    selectCurrent ["dev".data] ⟨0, "zzz".data, 0, ["dev".data], []⟩ = none := by
  have h := display_no_matches 10 [] ["dev".data]
    ⟨0, "zzz".data, 0, ["dev".data], ["dev".data]⟩
    ⟨0, "zzz".data, 0, ["dev".data], []⟩ (by decide) (by decide)
  obtain ⟨⟨pre, hpre⟩, hsel⟩ := h
  refine ⟨?_, hsel⟩
  rw [hpre]
  simp

/-! ## String-infix helpers for the formatter -/

theorem strInfix_refl (a : String) : strInfix a a := ⟨[], [], by simp⟩

theorem strInfix_append_left (x a b : String) (h : strInfix x b) :
    strInfix x (a ++ b) := by
  obtain ⟨u, v, huv⟩ := h
  exact ⟨a.data ++ u, v, by rw [String.data_append, huv]; simp⟩

theorem strInfix_append_right (x a b : String) (h : strInfix x a) :
    strInfix x (a ++ b) := by
  obtain ⟨u, v, huv⟩ := h
  exact ⟨u, v ++ b.data, by rw [String.data_append, huv]; simp⟩

theorem strInfix_trans {x y z : String} (h1 : strInfix x y) (h2 : strInfix y z) :
    strInfix x z := by
  obtain ⟨u1, v1, e1⟩ := h1
  obtain ⟨u2, v2, e2⟩ := h2
  exact ⟨u2 ++ u1, v1 ++ v2, by rw [e2, e1]; simp⟩

theorem strInfix_of_isInfixB {a b : String} (h : isInfixB a.data b.data = true) :
    strInfix a b := by
  obtain ⟨u, v, huv⟩ := isInfixB_ex h
  exact ⟨u, v, huv⟩

theorem strJoin_elem {l : List String} {y : String} (h : y ∈ l) :
    strInfix y (strJoin l) := by
  induction l with
  | nil => cases h
  | cons a rest ih =>
    simp only [strJoin, List.foldr_cons]
    rcases List.mem_cons.mp h with rfl | h2
    · exact strInfix_append_right _ _ _ (strInfix_refl y)
    · have := ih h2
      simp only [strJoin] at this
      exact strInfix_append_left _ _ _ this

theorem desc_infix_formatEntry (cfg : FmtConfig) (e : Entry) (b : Bool) :
    strInfix e.description (formatEntry cfg e b) := by
  rw [formatEntry]
  apply strInfix_append_right
  apply strInfix_append_right
  apply strInfix_append_right
  exact strInfix_append_left _ _ _ (strInfix_refl _)

theorem desc_infix_formatBreakingEntry (cfg : FmtConfig) (e : Entry) :
    strInfix e.description (formatBreakingEntry cfg e) := by
  rw [formatBreakingEntry]
  apply strInfix_append_right
  apply strInfix_append_right
  apply strInfix_append_right
  apply strInfix_append_right
  apply strInfix_append_right
  exact strInfix_append_left _ _ _ (strInfix_refl _)

theorem desc_infix_formatBreakingChanges (cfg : FmtConfig) {entries : List Entry}
    {e : Entry} (he : e ∈ entries) (ht : e.type = "breaking") :
    strInfix e.description (formatBreakingChanges cfg entries) := by
  have hmem : e ∈ entries.filter (fun x => x.type == "breaking") :=
    List.mem_filter.mpr ⟨he, by simp [ht]⟩
  simp only [formatBreakingChanges]
  rw [if_neg]
  · apply strInfix_append_right
    apply strInfix_append_left
    exact strInfix_trans (desc_infix_formatBreakingEntry cfg e)
      (strJoin_elem (List.mem_map.mpr ⟨e, hmem, rfl⟩))
  · intro hx
    have : entries.filter (fun x => x.type == "breaking") = [] := by simpa using hx
    rw [this] at hmem
    cases hmem

/-! ## The JS-object grouping (insertion order, unique keys) -/

theorem upsert_keys {α : Type} (k : String) (v : α) :
    ∀ acc : List (String × List α),
      (upsert k v acc).map Prod.fst =
        if k ∈ acc.map Prod.fst then acc.map Prod.fst
        else acc.map Prod.fst ++ [k] := by
  intro acc
  induction acc with
  | nil => simp [upsert]
  | cons p rest ih =>
    obtain ⟨k1, vs⟩ := p
    rw [upsert]
    by_cases hk : (k1 == k) = true
    · have he : k1 = k := by simpa using hk
      subst he
      rw [if_pos hk]
      simp
    · have hne : k1 ≠ k := by simpa using hk
      rw [if_neg hk]
      simp only [List.map_cons, ih]
      by_cases hmem : k ∈ rest.map Prod.fst
      · rw [if_pos hmem, if_pos (List.mem_cons_of_mem _ hmem)]
      · rw [if_neg hmem, if_neg ?_]
        · simp
        · intro hx
          rcases List.mem_cons.mp hx with he | hx2
          · exact hne he.symm
          · exact hmem hx2

theorem nodup_keys_upsert {α : Type} (k : String) (v : α)
    {acc : List (String × List α)} (h : (acc.map Prod.fst).Nodup) :
    ((upsert k v acc).map Prod.fst).Nodup := by
  rw [upsert_keys]
  by_cases hmem : k ∈ acc.map Prod.fst
  · rw [if_pos hmem]; exact h
  · rw [if_neg hmem]
    rw [List.nodup_append]
    refine ⟨h, by simp, fun x hx hxk => ?_⟩
    have hxe : x = k := by simpa using hxk
    subst hxe
    exact hmem hx

theorem mem_upsert_self {α : Type} (k : String) (v : α) :
    ∀ acc : List (String × List α),
      ∃ vs, (k, vs) ∈ upsert k v acc ∧ v ∈ vs := by
  intro acc
  induction acc with
  | nil => exact ⟨[v], by simp [upsert], by simp⟩
  | cons p rest ih =>
    obtain ⟨k1, vs1⟩ := p
    rw [upsert]
    by_cases hk : (k1 == k) = true
    · have he : k1 = k := by simpa using hk
      subst he
      rw [if_pos hk]
      exact ⟨vs1 ++ [v], List.mem_cons_self _ _, by simp⟩
    · rw [if_neg hk]
      obtain ⟨vs, h1, h2⟩ := ih
      exact ⟨vs, List.mem_cons_of_mem _ h1, h2⟩

theorem mem_upsert_preserve {α : Type} (k : String) (v : α) (k0 : String)
    (vs0 : List α) (x : α) (hx : x ∈ vs0) :
    ∀ acc : List (String × List α), (k0, vs0) ∈ acc →
      ∃ vs', (k0, vs') ∈ upsert k v acc ∧ x ∈ vs' := by
  intro acc
  induction acc with
  | nil => intro h; cases h
  | cons p rest ih =>
    intro hmem
    obtain ⟨k1, vs1⟩ := p
    rw [upsert]
    by_cases hk : (k1 == k) = true
    · rw [if_pos hk]
      rcases List.mem_cons.mp hmem with heq | hmem2
      · have e1 : k0 = k1 := congrArg Prod.fst heq
        have e2 : vs0 = vs1 := congrArg Prod.snd heq
        subst e1
        subst e2
        exact ⟨vs0 ++ [v], List.mem_cons_self _ _, List.mem_append_left _ hx⟩
      · exact ⟨vs0, List.mem_cons_of_mem _ hmem2, hx⟩
    · rw [if_neg hk]
      rcases List.mem_cons.mp hmem with heq | hmem2
      · exact ⟨vs0, List.mem_cons.mpr (Or.inl heq), hx⟩
      · obtain ⟨vs', h1, h2⟩ := ih hmem2
        exact ⟨vs', List.mem_cons_of_mem _ h1, h2⟩

theorem nodup_keys_foldl {α : Type} (key : α → String) :
    ∀ (l : List α) (acc : List (String × List α)),
      (acc.map Prod.fst).Nodup →
      ((l.foldl (fun a e => upsert (key e) e a) acc).map Prod.fst).Nodup := by
  intro l
  induction l with
  | nil => intro acc h; exact h
  | cons e rest ih =>
    intro acc h
    rw [List.foldl_cons]
    exact ih _ (nodup_keys_upsert _ _ h)

theorem groupBy_invariant {α : Type} (key : α → String) (x : α) :
    ∀ (l : List α) (acc : List (String × List α)),
      (acc.map Prod.fst).Nodup →
      ((∃ vs, (key x, vs) ∈ acc ∧ x ∈ vs) ∨ x ∈ l) →
      ∃ vs, (key x, vs) ∈ l.foldl (fun a e => upsert (key e) e a) acc ∧ x ∈ vs := by
  intro l
  induction l with
  | nil =>
    intro acc _ h
    rcases h with h | h
    · exact h
    · cases h
  | cons e rest ih =>
    intro acc hnd h
    rw [List.foldl_cons]
    apply ih _ (nodup_keys_upsert _ _ hnd)
    rcases h with ⟨vs, h1, h2⟩ | h
    · exact Or.inl (mem_upsert_preserve _ _ _ _ _ h2 acc h1)
    · rcases List.mem_cons.mp h with rfl | h2
      · exact Or.inl (mem_upsert_self (key x) x acc)
      · exact Or.inr h2

theorem groupBy_mem {α : Type} (key : α → String) {l : List α} {x : α}
    (h : x ∈ l) : ∃ vs, (key x, vs) ∈ groupBy key l ∧ x ∈ vs :=
  groupBy_invariant key x l [] (by simp) (Or.inr h)

theorem nodup_keys_groupBy {α : Type} (key : α → String) (l : List α) :
    ((groupBy key l).map Prod.fst).Nodup :=
  nodup_keys_foldl key l [] (by simp)

theorem lookupGroup_of_mem {α : Type} :
    ∀ {g : List (String × List α)} {k : String} {vs : List α},
      (g.map Prod.fst).Nodup → (k, vs) ∈ g → lookupGroup k g = some vs := by
  intro g
  induction g with
  | nil => intro k vs _ h; cases h
  | cons p rest ih =>
    intro k vs hnd hmem
    obtain ⟨k1, vs1⟩ := p
    rw [lookupGroup]
    rcases List.mem_cons.mp hmem with heq | hmem2
    · have e1 : k = k1 := congrArg Prod.fst heq
      have e2 : vs = vs1 := congrArg Prod.snd heq
      subst e1
      subst e2
      rw [if_pos (by simp)]
    · have hk : k1 ≠ k := by
        intro he
        subst he
        rw [List.map_cons, List.nodup_cons] at hnd
        exact hnd.1 (List.mem_map.mpr ⟨(k1, vs), hmem2, rfl⟩)
      rw [if_neg (by simpa using hk)]
      rw [List.map_cons, List.nodup_cons] at hnd
      exact ih hnd.2 hmem2

theorem mem_of_lookupGroup {α : Type} :
    ∀ {g : List (String × List α)} {k : String} {vs : List α},
      lookupGroup k g = some vs → (k, vs) ∈ g := by
  intro g
  induction g with
  | nil => intro k vs h; simp [lookupGroup] at h
  | cons p rest ih =>
    intro k vs h
    obtain ⟨k1, vs1⟩ := p
    rw [lookupGroup] at h
    by_cases hk : (k1 == k) = true
    · rw [if_pos hk] at h
      have e1 : k1 = k := by simpa using hk
      have e2 : vs1 = vs := by simpa using h
      subst e1
      subst e2
      exact List.mem_cons_self _ _
    · rw [if_neg hk] at h
      exact List.mem_cons_of_mem _ (ih h)

/-- A non-breaking category group is rendered by `formatCategories`:
known categories in the canonical pass, others in the remainder pass. -/
theorem cat_infix_formatCategories (cfg : FmtConfig)
    {grouped : List (String × List Entry)} {cat : String} {es : List Entry}
    (hnd : (grouped.map Prod.fst).Nodup) (hmem : (cat, es) ∈ grouped)
    (hbr : isBreakingCategory cat = false) :
    strInfix (formatCategory cfg cat es) (formatCategories cfg grouped) := by
  rw [formatCategories]
  by_cases hin : cat ∈ CATEGORIES
  · apply strInfix_append_right
    have hlk : lookupGroup cat grouped = some es := lookupGroup_of_mem hnd hmem
    refine strJoin_elem (List.mem_map.mpr ⟨cat, hin, ?_⟩)
    rw [hlk, hbr]
    rfl
  · apply strInfix_append_left
    refine strJoin_elem (List.mem_map.mpr ⟨(cat, es), hmem, ?_⟩)
    have hc : CATEGORIES.contains cat = false := by simpa using hin
    rw [hc, hbr]
    rfl

/-- Each entry of a rendered category group contributes its description. -/
theorem desc_infix_formatCategory (cfg : FmtConfig) (cat : String)
    {es : List Entry} {e : Entry} (he : e ∈ es) :
    strInfix e.description (formatCategory cfg cat es) := by
  rw [formatCategory]
  apply strInfix_append_right
  apply strInfix_append_left
  by_cases hlen : es.length > 5
  · rw [if_pos hlen]
    rw [formatByScopeGroups]
    obtain ⟨ses, h1, h2⟩ := groupBy_mem scopeKey he
    refine strInfix_trans ?_ (strJoin_elem (List.mem_map.mpr ⟨(scopeKey e, ses), h1, rfl⟩))
    apply strInfix_append_right
    apply strInfix_append_left
    exact strInfix_trans (desc_infix_formatEntry cfg e _)
      (strJoin_elem (List.mem_map.mpr ⟨e, h2, rfl⟩))
  · rw [if_neg hlen]
    exact strInfix_trans (desc_infix_formatEntry cfg e true)
      (strJoin_elem (List.mem_map.mpr ⟨e, he, rfl⟩))

/-- C4 (amended): every entry whose type is "breaking" or whose effective
category does not contain "BREAKING" appears in the rendered markdown;
in particular an entry with an unrecognized type and no category lands in
the "Other Changes" bucket, whose heading is rendered.  (A non-breaking
entry whose explicit category contains "BREAKING" is silently dropped;
see the counterexample.) -/
theorem formatMarkdown_no_silent_drop (cfg : FmtConfig) (today : String)
    (changelogFile : Option String) (inc : Bool) (baseBranch : String)
    (entries : List Entry) (e : Entry) (he : e ∈ entries)
    (hc : e.type = "breaking" ∨ isBreakingCategory (categoryOf e) = false) :
    strInfix e.description (formatMarkdown cfg today changelogFile inc entries baseBranch) ∧
    (e.category = none → typeToCategory e.type = none →
      strInfix "### Other Changes"
        (formatMarkdown cfg today changelogFile inc entries baseBranch)) := by
  have hne : (entries == []) = false := by
    have := List.ne_nil_of_mem he
    simp [this]
  have hunfold : formatMarkdown cfg today changelogFile inc entries baseBranch =
      formatHeader (getNextVersion changelogFile inc) today
        ++ formatBreakingChanges cfg entries
        ++ formatCategories cfg (groupByCategory entries) := by
    rw [formatMarkdown, hne]
    simp
  constructor
  · rcases hc with ht | hcat
    · rw [hunfold]
      apply strInfix_append_right
      apply strInfix_append_left
      exact desc_infix_formatBreakingChanges cfg he ht
    · rw [hunfold]
      apply strInfix_append_left
      obtain ⟨es, h1, h2⟩ := groupBy_mem categoryOf he
      exact strInfix_trans (desc_infix_formatCategory cfg _ h2)
        (cat_infix_formatCategories cfg (nodup_keys_groupBy _ _) h1 hcat)
  · intro hcatnone htnone
    have hco : categoryOf e = "Other Changes" := by
      rw [categoryOf, hcatnone, typeFallback, htnone]
    have hbr : isBreakingCategory "Other Changes" = false := by decide
    rw [hunfold]
    apply strInfix_append_left
    obtain ⟨es, h1, h2⟩ := groupBy_mem categoryOf he
    rw [hco] at h1
    refine strInfix_trans ?_
      (cat_infix_formatCategories cfg (nodup_keys_groupBy _ _) h1 hbr)
    rw [formatCategory]
    apply strInfix_append_right
    apply strInfix_append_right
    apply strInfix_append_right
    exact ⟨[], [], by decide⟩

/-- Witness for the amended C4 theorem: a fix-type entry appears in the
output. -/
theorem formatMarkdown_no_silent_drop_witness :
    strInfix "fixed the bug"
      (formatMarkdown ⟨"github", "", none⟩ "2026-10-11" none false
        [Entry.mk "fix" none "core" "fixed the bug" none none []] "main") :=
  (formatMarkdown_no_silent_drop ⟨"github", "", none⟩ "2026-10-11" none false "main"
    [Entry.mk "fix" none "core" "fixed the bug" none none []]
    (Entry.mk "fix" none "core" "fixed the bug" none none [])
    (by simp) (Or.inr (by decide))).1

/-- C4 counterexample: a feat-type entry whose explicit category contains
"BREAKING" is silently dropped — the rendered markdown is the bare
version header, with the entry's description nowhere in it. -/
theorem formatMarkdown_drop_counterexample :
    (Entry.mk "feat" (some "⚠️ BREAKING CHANGES") "s" "UNIQDESC" none none []) ∈
      [Entry.mk "feat" (some "⚠️ BREAKING CHANGES") "s" "UNIQDESC" none none []] ∧
    formatMarkdown ⟨"github", "", none⟩ "2026-10-11" none false
      [Entry.mk "feat" (some "⚠️ BREAKING CHANGES") "s" "UNIQDESC" none none []] "main" =
      "## [0.0.1] - 2026-10-11\n\n" := by
  exact ⟨by simp, by rfl⟩

/-- C1 (amended): for every non-empty entry list, the rendered markdown
is the version header, then the BREAKING CHANGES block, then the category
sections — so every breaking-type entry is rendered under the breaking
heading before every category section, regardless of its declared
`category` field.  However, a breaking-type entry is pulled out of the
category grouping only when its effective category contains "BREAKING":
one with an explicit non-breaking category additionally renders under
that category (see the counterexample). -/
theorem formatMarkdown_breaking_first (cfg : FmtConfig) (today : String)
    (changelogFile : Option String) (inc : Bool) (baseBranch : String)
    (entries : List Entry) (hne : entries ≠ []) :
    formatMarkdown cfg today changelogFile inc entries baseBranch =
      formatHeader (getNextVersion changelogFile inc) today
        ++ formatBreakingChanges cfg entries
        ++ formatCategories cfg (groupByCategory entries) ∧
    (∀ e ∈ entries, e.type = "breaking" →
      strInfix e.description (formatBreakingChanges cfg entries)) ∧
    (∀ e ∈ entries, e.type = "breaking" → ∀ c, e.category = some c → c ≠ "" →
      isBreakingCategory c = false →
      strInfix e.description (formatCategories cfg (groupByCategory entries))) := by
  have hneb : (entries == []) = false := by simp [hne]
  refine ⟨by rw [formatMarkdown, hneb]; simp, ?_, ?_⟩
  · intro e he ht
    exact desc_infix_formatBreakingChanges cfg he ht
  · intro e he _ c hcat hcne hbr
    have hco : categoryOf e = c := by
      rw [categoryOf, hcat]
      simp [hcne]
    obtain ⟨es, h1, h2⟩ := groupBy_mem categoryOf he
    rw [hco] at h1
    exact strInfix_trans (desc_infix_formatCategory cfg _ h2)
      (cat_infix_formatCategories cfg (nodup_keys_groupBy _ _) h1 hbr)

/-- Witness for the amended C1 theorem on a one-entry list. -/
theorem formatMarkdown_breaking_first_witness :
    formatMarkdown ⟨"github", "", none⟩ "2026-10-11" none false
        [Entry.mk "breaking" none "api" "redesigned API" none none []] "main" =
      formatHeader (getNextVersion none false) "2026-10-11"
        ++ formatBreakingChanges ⟨"github", "", none⟩
            [Entry.mk "breaking" none "api" "redesigned API" none none []]
        ++ formatCategories ⟨"github", "", none⟩
            (groupByCategory [Entry.mk "breaking" none "api" "redesigned API" none none []]) ∧
    strInfix "redesigned API"
      (formatBreakingChanges ⟨"github", "", none⟩
        [Entry.mk "breaking" none "api" "redesigned API" none none []]) := by
  have h := formatMarkdown_breaking_first ⟨"github", "", none⟩ "2026-10-11" none false
    "main" [Entry.mk "breaking" none "api" "redesigned API" none none []] (by simp)
  exact ⟨h.1, h.2.1 (Entry.mk "breaking" none "api" "redesigned API" none none [])
    (by simp) rfl⟩

/-- C1 counterexample: a breaking-type entry with the explicit category
"🚀 Features" renders under the breaking heading AND again under its
declared category — the Features section appears in the output and the
entry's description appears in the category sections, refuting the
claim's "does not additionally render under its declared category". -/
theorem formatMarkdown_breaking_duplicate_counterexample :
    strInfix "### 🚀 Features"
      (formatMarkdown ⟨"github", "", none⟩ "2026-10-11" none false
        [Entry.mk "breaking" (some "🚀 Features") "core" "DESCX" none none []] "main") ∧
    strInfix "DESCX"
      (formatCategories ⟨"github", "", none⟩
        (groupByCategory
          [Entry.mk "breaking" (some "🚀 Features") "core" "DESCX" none none []])) := by
  exact ⟨strInfix_of_isInfixB (by decide), strInfix_of_isInfixB (by decide)⟩

/-! ## The greedy regex span of `parseResponse` (C3) -/

theorem dropWhile_head_not {p : Char → Bool} : ∀ {l : Str} {c : Char},
    (l.dropWhile p).head? = some c → p c = false := by
  intro l
  induction l with
  | nil => intro c h; simp [List.dropWhile] at h
  | cons a tl ih =>
    intro c h
    rw [List.dropWhile] at h
    by_cases hp : p a = true
    · rw [hp] at h
      exact ih h
    · have hp2 : p a = false := by simpa using hp
      rw [hp2] at h
      simp only [List.head?_cons, Option.some.injEq] at h
      rw [← h]
      exact hp2

theorem firstBraceSuffix_spec : ∀ {t s : Str}, firstBraceSuffix t = some s →
    (∃ u, t = u ++ s) ∧
      ∃ rest, s = '\x7b' :: rest ∧ rest.contains '\x7d' = true := by
  intro t
  induction t with
  | nil => intro s h; simp [firstBraceSuffix] at h
  | cons c tr ih =>
    intro s h
    rw [firstBraceSuffix] at h
    by_cases hc : (c == '\x7b' && tr.contains '\x7d') = true
    · rw [if_pos hc] at h
      have hs : s = c :: tr := by simpa using h.symm
      simp only [Bool.and_eq_true] at hc
      have hcb : c = '\x7b' := by simpa using hc.1
      exact ⟨⟨[], by simp [hs]⟩, tr, by rw [hs, hcb], hc.2⟩
    · rw [if_neg hc] at h
      obtain ⟨⟨u, htu⟩, hrest⟩ := ih h
      exact ⟨⟨c :: u, by simp [htu]⟩, hrest⟩

theorem keep_spec {s : Str} (h : s.contains '\x7d' = true) :
    (∃ v, s = keepThroughLastBrace s ++ v) ∧
    (keepThroughLastBrace s).getLast? = some '\x7d' ∧
    keepThroughLastBrace s ≠ [] := by
  have hmem : '\x7d' ∈ s.reverse := by
    rw [List.mem_reverse]
    simpa using h
  have hnil : s.reverse.dropWhile (fun c => c != '\x7d') ≠ [] := by
    intro hx
    rw [List.dropWhile_eq_nil_iff] at hx
    have := hx _ hmem
    simp at this
  constructor
  · refine ⟨(s.reverse.takeWhile (fun c => c != '\x7d')).reverse, ?_⟩
    rw [keepThroughLastBrace]
    have := List.takeWhile_append_dropWhile (fun c => c != '\x7d') s.reverse
    calc s = s.reverse.reverse := (List.reverse_reverse s).symm
      _ = (s.reverse.takeWhile (fun c => c != '\x7d')
            ++ s.reverse.dropWhile (fun c => c != '\x7d')).reverse := by rw [this]
      _ = (s.reverse.dropWhile (fun c => c != '\x7d')).reverse
            ++ (s.reverse.takeWhile (fun c => c != '\x7d')).reverse := by
              rw [List.reverse_append]
  · constructor
    · rw [keepThroughLastBrace, List.getLast?_reverse]
      cases hh : (s.reverse.dropWhile (fun c => c != '\x7d')).head? with
      | none =>
        exfalso
        exact hnil (List.head?_eq_none_iff.mp hh)
      | some c =>
        have := dropWhile_head_not hh
        have hc : c = '\x7d' := by simpa using this
        rw [hc]
    · rw [keepThroughLastBrace]
      intro hx
      exact hnil (by simpa using hx)

theorem extractSpan_spec : ∀ {t s : Str}, extractSpan t = some s →
    (∃ u v, t = u ++ s ++ v) ∧ s.head? = some '\x7b' ∧
      s.getLast? = some '\x7d' := by
  intro t s h
  rw [extractSpan] at h
  cases hf : firstBraceSuffix t with
  | none => rw [hf] at h; cases h
  | some s0 =>
    rw [hf] at h
    have hs : s = keepThroughLastBrace s0 := by simpa using h.symm
    obtain ⟨⟨u, htu⟩, rest, hs0, hcont⟩ := firstBraceSuffix_spec hf
    have hcont0 : s0.contains '\x7d' = true := by
      rw [hs0]
      have hm : '\x7d' ∈ rest := by simpa using hcont
      have hm2 : '\x7d' ∈ '\x7b' :: rest := List.mem_cons_of_mem _ hm
      simpa using hm2
    obtain ⟨⟨v, hsv⟩, hlast, hne⟩ := keep_spec hcont0
    refine ⟨⟨u, v, by rw [htu, hsv, hs, List.append_assoc]⟩, ?_, by rw [hs]; exact hlast⟩
    rw [hs]
    cases hk : keepThroughLastBrace s0 with
    | nil => exact absurd hk hne
    | cons a ka =>
      have hccc : '\x7b' :: rest = a :: (ka ++ v) := by
        rw [← hs0, hsv, hk, List.cons_append]
      have ha : a = '\x7b' := by
        have := congrArg List.head? hccc
        simpa using this.symm
      rw [ha]
      rfl

/-- C3 (amended): `parseResponse` extracts the greedy regex span — an
infix of the raw text running from the first opening brace that has a
later closing brace through the LAST closing brace of the text (not the
first balanced span) — and JSON-parses it, tolerating surrounding prose;
in particular the example text parses successfully to an object with an
empty entries list. -/
theorem parseResponse_span (t s : Str) (h : extractSpan t = some s) :
    ((∃ u v, t = u ++ s ++ v) ∧ s.head? = some '\x7b' ∧
      s.getLast? = some '\x7d' ∧ parseResponse t = jsonParse s) ∧
    parseResponse "Here you go:\n\x7b\"entries\":[]\x7d\nThanks".data =
      some (Json.obj [("entries".data, Json.arr [])]) := by
  obtain ⟨huv, hhead, hlast⟩ := extractSpan_spec h
  refine ⟨⟨huv, hhead, hlast, ?_⟩, by rfl⟩
  rw [parseResponse, h]

/-- Witness for the amended C3 theorem at a concrete prose-wrapped
response. -/
theorem parseResponse_span_witness :
    ((∃ u v, "x\x7b\"a\":1\x7dy\x7b\"b\":2\x7dz".data =
        u ++ "\x7b\"a\":1\x7dy\x7b\"b\":2\x7d".data ++ v) ∧
      "\x7b\"a\":1\x7dy\x7b\"b\":2\x7d".data.head? = some '\x7b' ∧
      "\x7b\"a\":1\x7dy\x7b\"b\":2\x7d".data.getLast? = some '\x7d' ∧
      parseResponse "x\x7b\"a\":1\x7dy\x7b\"b\":2\x7dz".data =
        jsonParse "\x7b\"a\":1\x7dy\x7b\"b\":2\x7d".data) ∧
    parseResponse "Here you go:\n\x7b\"entries\":[]\x7d\nThanks".data =
      some (Json.obj [("entries".data, Json.arr [])]) :=
  parseResponse_span "x\x7b\"a\":1\x7dy\x7b\"b\":2\x7dz".data
    "\x7b\"a\":1\x7dy\x7b\"b\":2\x7d".data (by rfl)

/-- C3 counterexample: on the text `x\x7b"a":1\x7dy\x7b"b":2\x7dz` the
first balanced span `\x7b"a":1\x7d` is valid JSON, so under the claim
`parseResponse` would succeed; but the greedy regex grabs from the first
`\x7b` to the last `\x7d`, which is not valid JSON, and `parseResponse`
fails. -/
theorem parseResponse_balanced_counterexample :
    parseResponse "x\x7b\"a\":1\x7dy\x7b\"b\":2\x7dz".data = none ∧
    firstBalancedSpan "x\x7b\"a\":1\x7dy\x7b\"b\":2\x7dz".data =
      some "\x7b\"a\":1\x7d".data ∧
    jsonParse "\x7b\"a\":1\x7d".data =
      some (Json.obj [("a".data, Json.num 1)]) ∧
    extractSpan "x\x7b\"a\":1\x7dy\x7b\"b\":2\x7dz".data =
      some "\x7b\"a\":1\x7dy\x7b\"b\":2\x7d".data := by
  exact ⟨by rfl, by rfl, by rfl, by rfl⟩

end Changelog
